import Mathlib

/-!
# Verification of the shardcache sharded in-memory cache

Shallow embedding of the core of the `shardcache` Go repository:
the per-shard cache engine (`cache/shard.go`), the bundled LRU and 2Q
eviction policies (`policy/lru`, `policy/twoq/twoq.go`), the capacity and
cost enforcement, the eviction/metrics accounting, the cache constructor's
capacity/cost splitting (`cache/cache.go`, `internal/util`) and the
sequential behaviour of `GetOrLoad`.

Node pointers are modelled as indices into an append-only `store`; the Go
map `shard.m` becomes an association list with unique keys; the intrusive
doubly linked MRU↔LRU list becomes the list `order` of node indices
(head = MRU, last = LRU).  The calls a shard makes to its Metrics sink are
recorded, in order, in an `events` trace.  Machine integers (`int`,
`int64`, `int32`) are modelled as unbounded `Int`: no arithmetic in the
modelled paths can overflow except in `NextPow2`, whose 64-bit wrap is
modelled explicitly.
-/

set_option maxHeartbeats 1000000

namespace Shardcache

/-- Eviction reasons (cache/options.go: EvictPolicy, EvictTTL, EvictCapacity). -/
inductive EvictReason : Type
  | policy
  | ttl
  | capacity
deriving DecidableEq

/-- One call to the Metrics sink (cache/options.go: Hit, Miss, Evict, Size). -/
inductive MEvent : Type
  | hit
  | miss
  | evict (r : EvictReason)
  | size (entries : Int) (cost : Int)
deriving DecidableEq

/-- The two bundled eviction policies (policy/lru and policy/twoq). -/
inductive Pol : Type
  | lru
  | twoq
deriving DecidableEq

/-- Payload of an intrusive list node (cache/node.go): key, value, absolute
expiration deadline in UnixNano (0 = no TTL) and the int32 cost.  The
`prev`/`next` links are represented by the node's position in the shard's
`order` list. -/
structure NodeData (K V : Type) where
  key : K
  val : V
  exp : Int
  cost : Int
deriving DecidableEq

instance {K V : Type} [Inhabited K] [Inhabited V] : Inhabited (NodeData K V) :=
  ⟨⟨default, default, 0, 0⟩⟩

/-- State of one shard (cache/shard.go) together with its per-shard policy
instance.  `store` is the heap of nodes ever allocated in this shard (node
pointer = index), `m` the key→node map, `order` the intrusive list
(head = MRU, last = LRU), `len`/`cost` the resident counters, `cap` and
`maxCost` the per-shard limits.  The 2Q policy state (twoq.go: `inList`
plus `inIdx` as `a1in`, `ghostList` plus `ghostIdx` as `ghost`) is unused
by the LRU policy.  `hits`/`misses`/`evicts` are the hot counters and
`events` the chronological trace of Metrics calls. -/
structure Shard (K V : Type) where
  store : List (NodeData K V)
  m : List (K × Nat)
  order : List Nat
  len : Int
  cost : Int
  cap : Int
  maxCost : Int
  pol : Pol
  capIn : Int
  capGhost : Int
  a1in : List Nat
  ghost : List K
  hits : Nat
  misses : Nat
  evicts : Nat
  events : List MEvent
deriving DecidableEq

variable {K V : Type} [DecidableEq K] [Inhabited K] [Inhabited V]

/-- Dereference a node index in the store (model of following a `*node`). -/
def nodeAt (store : List (NodeData K V)) (i : Nat) : NodeData K V :=
  store.getD i default

/-- Go map lookup `s.m[k]`. -/
def lookupM : List (K × Nat) → K → Option Nat
  | [], _ => none
  | p :: rest, k => if p.1 = k then some p.2 else lookupM rest k

/-- Go map delete `delete(s.m, k)` (a Go map holds each key at most once). -/
def eraseKey : List (K × Nat) → K → List (K × Nat)
  | [], _ => []
  | p :: rest, k => if p.1 = k then eraseKey rest k else p :: eraseKey rest k

/-- insertFront (shard.go): link `n` as the new MRU head; `len++`,
`cost += n.cost`. -/
def insertFront (s : Shard K V) (i : Nat) : Shard K V :=
  { s with order := i :: s.order
         , len := s.len + 1
         , cost := s.cost + (nodeAt s.store i).cost }

/-- moveToFront (shard.go): detach `n` and relink it at the head.  When `n`
is already the head, `i :: s.order.erase i` equals `s.order`, matching the
early return; when `n` is not linked at all, the Go code also just inserts
it at the head without touching `len`. -/
def moveToFront (s : Shard K V) (i : Nat) : Shard K V :=
  { s with order := i :: s.order.erase i }

/-- removeNode (shard.go): unlink `n`; `len--`, `cost -= n.cost` clamped
defensively at 0. -/
def removeNode (s : Shard K V) (i : Nat) : Shard K V :=
  { s with order := s.order.erase i
         , len := s.len - 1
         , cost := if s.cost - (nodeAt s.store i).cost < 0 then 0
                   else s.cost - (nodeAt s.store i).cost }

/-- back (shard.go): the current LRU node, nil when the list is empty. -/
def back (s : Shard K V) : Option Nat :=
  s.order.getLast?

/-- Ghost-capacity trimming loop at the end of 2Q OnRemove (twoq.go):
while `|A1out| > capGhost`, drop the LRU (back) ghost; break when the list
is empty.  `ghostIdx` mirrors `ghostList`, so one list models both. -/
def trimGhost (g : List K) (capG : Int) : List K :=
  if (g.length : Int) > capG then
    if hg : g = [] then g
    else trimGhost g.dropLast capG
  else g
termination_by g.length
decreasing_by
  have hlen : 0 < g.length := List.length_pos.mpr hg
  simp [List.length_dropLast]
  omega

/-- 2Q OnAdd (twoq.go): a key present in the ghost queue is admitted
directly to Am (push front, ghost entry removed, no candidate); otherwise
the node is pushed front and recorded as the MRU of A1in, and when
`|A1in| > capIn` the node at the LRU end of A1in is returned as the
eviction candidate. -/
def twoqOnAdd (s : Shard K V) (i : Nat) : Shard K V × Option Nat :=
  if (nodeAt s.store i).key ∈ s.ghost then
    (insertFront { s with ghost := s.ghost.erase (nodeAt s.store i).key } i,
     none)
  else
    let s1 := { insertFront s i with a1in := i :: s.a1in }
    let lenIn : Int := s1.a1in.length
    if lenIn > s1.capIn then
      (s1, s1.a1in.getLast?)
    else
      (s1, none)

/-- Policy OnAdd dispatch (shard.go `s.pol.OnAdd(n)`): LRU pushes front and
never nominates an eviction (policy/lru); 2Q is `twoqOnAdd`. -/
def polOnAdd (s : Shard K V) (i : Nat) : Shard K V × Option Nat :=
  match s.pol with
  | Pol.lru => (insertFront s i, none)
  | Pol.twoq => twoqOnAdd s i

/-- Policy OnGet dispatch (policy/lru OnGet; twoq.go OnGet: a node found in
A1in graduates to Am, then move to MRU). -/
def polOnGet (s : Shard K V) (i : Nat) : Shard K V :=
  match s.pol with
  | Pol.lru => moveToFront s i
  | Pol.twoq =>
    let s1 := if i ∈ s.a1in then { s with a1in := s.a1in.erase i } else s
    moveToFront s1 i

/-- Policy OnUpdate dispatch: both policies treat an update as recent use
(lru OnUpdate = MoveToFront, twoq OnUpdate calls OnGet). -/
def polOnUpdate (s : Shard K V) (i : Nat) : Shard K V :=
  polOnGet s i

/-- Policy OnRemove dispatch (lru: no-op; twoq.go OnRemove: a node removed
out of A1in pushes its key to the MRU end of the ghosts — moving an
existing ghost entry to the front — then the ghosts are trimmed to
capGhost.  Removals from Am do not populate ghosts). -/
def polOnRemove (s : Shard K V) (i : Nat) : Shard K V :=
  match s.pol with
  | Pol.lru => s
  | Pol.twoq =>
    if i ∈ s.a1in then
      let k := (nodeAt s.store i).key
      { s with a1in := s.a1in.erase i
             , ghost := trimGhost (k :: s.ghost.erase k) s.capGhost }
    else s

/-- Removal tail shared by shard Remove and evictNode (shard.go): policy
OnRemove, list unlink, then map delete of the given key. -/
def removeCore (s : Shard K V) (i : Nat) (key : K) : Shard K V :=
  let s1 := removeNode (polOnRemove s i) i
  { s1 with m := eraseKey s1.m key }

/-- evictNode (shard.go): policy OnRemove, unlink, map delete of `n.key`,
eviction counter increment and one `Evict(reason)` metrics event.  The
optional user OnEvict callback receives copies of key/value and does not
touch cache state, so it is not modelled. -/
def evictNode (s : Shard K V) (i : Nat) (r : EvictReason) : Shard K V :=
  let s1 := removeCore s i (nodeAt s.store i).key
  { s1 with evicts := s1.evicts + 1
          , events := s1.events ++ [MEvent.evict r] }

theorem polOnRemove_order (s : Shard K V) (i : Nat) :
    (polOnRemove s i).order = s.order := by
  unfold polOnRemove
  cases s.pol <;> simp only
  split <;> rfl

theorem polOnRemove_eq (s : Shard K V) (i : Nat) :
    ∃ a g, polOnRemove s i = { s with a1in := a, ghost := g } := by
  unfold polOnRemove
  split
  · exact ⟨s.a1in, s.ghost, rfl⟩
  · split
    · exact ⟨_, _, rfl⟩
    · exact ⟨s.a1in, s.ghost, rfl⟩

theorem removeCore_order (s : Shard K V) (i : Nat) (k : K) :
    (removeCore s i k).order = s.order.erase i := by
  unfold removeCore removeNode
  simp [polOnRemove_order]

theorem evictNode_order (s : Shard K V) (i : Nat) (r : EvictReason) :
    (evictNode s i r).order = s.order.erase i := by
  unfold evictNode
  simp [removeCore_order]

theorem length_erase_lt_of_back {s : Shard K V} {t : Nat}
    (h : back s = some t) : (s.order.erase t).length < s.order.length := by
  have ht : t ∈ s.order := by
    unfold back at h
    obtain ⟨hne, heq⟩ := List.mem_getLast?_eq_getLast (l := s.order) (x := t) h
    exact heq ▸ List.getLast_mem hne
  have := List.length_erase_of_mem ht
  have hpos : 0 < s.order.length := List.length_pos.mpr (List.ne_nil_of_mem ht)
  omega

/-- Count-limit loop of enforceLimitsLocked (shard.go): while `len > cap`,
evict the tail with reason Policy; break when the list is empty. -/
def enforceCount (s : Shard K V) : Shard K V :=
  if s.len > s.cap then
    match h : back s with
    | some t => enforceCount (evictNode s t EvictReason.policy)
    | none => s
  else s
termination_by s.order.length
decreasing_by
  rw [evictNode_order]
  exact length_erase_lt_of_back h

/-- Cost-limit loop of enforceLimitsLocked (shard.go): while
`cost > maxCost`, evict the tail with reason Capacity; break when the list
is empty. -/
def enforceCost (s : Shard K V) : Shard K V :=
  if s.cost > s.maxCost then
    match h : back s with
    | some t => enforceCost (evictNode s t EvictReason.capacity)
    | none => s
  else s
termination_by s.order.length
decreasing_by
  rw [evictNode_order]
  exact length_erase_lt_of_back h

/-- enforceLimitsLocked (shard.go): count loop, then — only when
`maxCost > 0` — the cost loop, then one `Size(len, cost)` metrics event. -/
def enforceLimits (s : Shard K V) : Shard K V :=
  let s1 := enforceCount s
  let s2 := if 0 < s1.maxCost then enforceCost s1 else s1
  { s2 with events := s2.events ++ [MEvent.size s2.len s2.cost] }

/-- Shared new-entry path of shard Add and of shard Set on a missing key
(shard.go): allocate the node, insert it into the map, run the policy
OnAdd, evict the policy's candidate (reason Policy) when one is nominated,
then enforce the limits. -/
def shardInsertNew (s : Shard K V) (k : K) (v : V) (ttl cost : Int) :
    Shard K V :=
  let i := s.store.length
  let s1 := { s with store := s.store ++ [⟨k, v, ttl, cost⟩]
                   , m := (k, i) :: s.m }
  let r := polOnAdd s1 i
  let s3 := match r.2 with
            | some j => evictNode r.1 j EvictReason.policy
            | none => r.1
  enforceLimits s3

/-- shard Add (shard.go): insert a NEW entry as MRU; returns false and does
nothing when the key already exists. -/
def shardAdd (s : Shard K V) (k : K) (v : V) (ttl cost : Int) :
    Shard K V × Bool :=
  match lookupM s.m k with
  | some _ => (s, false)
  | none => (shardInsertNew s k v ttl cost, true)

/-- shard Set (shard.go): in-place update (value, deadline, cost delta,
policy OnUpdate, limit enforcement) when the key is present, otherwise the
same new-entry path as Add. -/
def shardSet (s : Shard K V) (k : K) (v : V) (ttl cost : Int) : Shard K V :=
  match lookupM s.m k with
  | some i =>
    let old := (nodeAt s.store i).cost
    let nd := { nodeAt s.store i with val := v, exp := ttl, cost := cost }
    let s1 := { s with store := s.store.set i nd
                     , cost := s.cost + (cost - old) }
    enforceLimits (polOnUpdate s1 i)
  | none => shardInsertNew s k v ttl cost

/-- expiredLocked (shard.go): `n.exp != 0 && now() > n.exp`. -/
def expired (nd : NodeData K V) (now : Int) : Prop :=
  nd.exp ≠ 0 ∧ now > nd.exp

instance (nd : NodeData K V) (now : Int) : Decidable (expired nd now) :=
  instDecidableAnd

/-- shard Get (shard.go): on a miss, count it and emit Miss; on a hit of an
expired entry, evict it with reason TTL and report a miss; otherwise
policy OnGet, hit counter, Hit event and the stored value. -/
def shardGet (s : Shard K V) (k : K) (now : Int) : Shard K V × Option V :=
  match lookupM s.m k with
  | none =>
    ({ s with misses := s.misses + 1, events := s.events ++ [MEvent.miss] },
     none)
  | some i =>
    let nd := nodeAt s.store i
    if expired nd now then
      let s1 := evictNode s i EvictReason.ttl
      ({ s1 with misses := s1.misses + 1
               , events := s1.events ++ [MEvent.miss] }, none)
    else
      let s1 := polOnGet s i
      ({ s1 with hits := s1.hits + 1
               , events := s1.events ++ [MEvent.hit] }, some nd.val)

/-- shard Remove (shard.go): policy OnRemove, unlink, map delete; returns
whether the key existed.  Deliberately no eviction counter increment and
no metrics event. -/
def shardRemove (s : Shard K V) (k : K) : Shard K V × Bool :=
  match lookupM s.m k with
  | none => (s, false)
  | some i => (removeCore s i k, true)

/-- One public shard-level operation, as invoked (under the shard lock) by
the public cache operations: Add and Set carry the absolute deadline and
the clamped cost computed by the cache front end, Get carries the clock
reading. -/
inductive ShardOp (K V : Type) where
  | add (k : K) (v : V) (ttl cost : Int)
  | set (k : K) (v : V) (ttl cost : Int)
  | get (k : K) (now : Int)
  | remove (k : K)

/-- Apply one shard operation (dropping the returned value/flag). -/
def applyOp (s : Shard K V) : ShardOp K V → Shard K V
  | ShardOp.add k v ttl cost => (shardAdd s k v ttl cost).1
  | ShardOp.set k v ttl cost => shardSet s k v ttl cost
  | ShardOp.get k now => (shardGet s k now).1
  | ShardOp.remove k => (shardRemove s k).1

/-- Apply a sequence of shard operations, oldest first. -/
def applyOps (s : Shard K V) (ops : List (ShardOp K V)) : Shard K V :=
  ops.foldl applyOp s

/-- Costs handed to a shard by the cache front end are the output of
`costOf`, which clamps them to `[0, int32max]` (cache.go); TTLs are
arbitrary. -/
def GoodOp : ShardOp K V → Prop
  | ShardOp.add _ _ _ cost => 0 ≤ cost
  | ShardOp.set _ _ _ cost => 0 ≤ cost
  | ShardOp.get _ _ => True
  | ShardOp.remove _ => True

instance (op : ShardOp K V) : Decidable (GoodOp op) := by
  cases op <;> simp only [GoodOp] <;> infer_instance

/-- A freshly constructed shard (newShard in shard.go composed with the
per-policy factory `New`): empty structures, given per-shard capacity and
per-shard maxCost, and the (already clamped) 2Q queue capacities. -/
def mkShard (cap maxCost : Int) (pol : Pol) (capIn capGhost : Int) :
    Shard K V :=
  { store := [], m := [], order := [], len := 0, cost := 0
  , cap := cap, maxCost := maxCost, pol := pol
  , capIn := capIn, capGhost := capGhost
  , a1in := [], ghost := [], hits := 0, misses := 0, evicts := 0
  , events := [] }

/-- Total cost of a list of resident nodes (sum of int32 costs in int64,
shard.go's `cost` bookkeeping target). -/
def costSum (store : List (NodeData K V)) (order : List Nat) : Int :=
  (order.map (fun i => (nodeAt store i).cost)).sum

/-! ### Association-list (Go map) lemmas -/

theorem lookupM_eq_none_iff (l : List (K × Nat)) (k : K) :
    lookupM l k = none ↔ k ∉ l.map Prod.fst := by
  induction l with
  | nil => simp [lookupM]
  | cons p rest ih =>
    by_cases hp : p.1 = k
    · simp [lookupM, hp]
    · simp [lookupM, hp, ih, Ne.symm hp]

theorem lookupM_some_mem {l : List (K × Nat)} {k : K} {i : Nat}
    (h : lookupM l k = some i) : (k, i) ∈ l := by
  induction l with
  | nil => simp [lookupM] at h
  | cons p rest ih =>
    by_cases hp : p.1 = k
    · rw [lookupM, if_pos hp] at h
      have hpe : p = (k, i) := Prod.ext hp (Option.some.inj h)
      rw [hpe]
      exact List.mem_cons_self _ _
    · rw [lookupM, if_neg hp] at h
      exact List.mem_cons_of_mem _ (ih h)

theorem lookupM_eq_some_of_mem {l : List (K × Nat)} {k : K} {i : Nat}
    (hk : (l.map Prod.fst).Nodup) (h : (k, i) ∈ l) : lookupM l k = some i := by
  induction l with
  | nil => simp at h
  | cons p rest ih =>
    simp only [List.map_cons, List.nodup_cons] at hk
    rcases List.mem_cons.mp h with heq | hmem
    · subst heq
      simp [lookupM]
    · have hne : p.1 ≠ k := by
        intro hpk
        exact hk.1 (hpk ▸ List.mem_map.mpr ⟨(k, i), hmem, rfl⟩)
      simp [lookupM, hne, ih hk.2 hmem]

theorem eraseKey_sublist (l : List (K × Nat)) (k : K) :
    List.Sublist (eraseKey l k) l := by
  induction l with
  | nil => simp [eraseKey]
  | cons p rest ih =>
    by_cases hp : p.1 = k
    · simp only [eraseKey, hp, if_pos]
      exact ih.cons p
    · simp only [eraseKey, hp, if_neg, not_false_iff]
      exact ih.cons₂ p

theorem mem_eraseKey {l : List (K × Nat)} {k : K} {p : K × Nat} :
    p ∈ eraseKey l k ↔ p ∈ l ∧ p.1 ≠ k := by
  induction l with
  | nil => simp [eraseKey]
  | cons q rest ih =>
    by_cases hq : q.1 = k
    · rw [eraseKey, if_pos hq, ih]
      constructor
      · rintro ⟨h1, h2⟩
        exact ⟨List.mem_cons_of_mem _ h1, h2⟩
      · rintro ⟨h1, h2⟩
        rcases List.mem_cons.mp h1 with rfl | h1
        · exact absurd hq h2
        · exact ⟨h1, h2⟩
    · rw [eraseKey, if_neg hq]
      constructor
      · intro h
        rcases List.mem_cons.mp h with rfl | h
        · exact ⟨List.mem_cons_self _ _, hq⟩
        · exact ⟨List.mem_cons_of_mem _ (ih.mp h).1, (ih.mp h).2⟩
      · rintro ⟨h1, h2⟩
        rcases List.mem_cons.mp h1 with rfl | h1
        · exact List.mem_cons_self _ _
        · exact List.mem_cons_of_mem _ (ih.mpr ⟨h1, h2⟩)

theorem lookupM_eraseKey_self (l : List (K × Nat)) (k : K) :
    lookupM (eraseKey l k) k = none := by
  rw [lookupM_eq_none_iff]
  intro hmem
  obtain ⟨p, hp, hfst⟩ := List.mem_map.mp hmem
  exact (mem_eraseKey.mp hp).2 hfst

theorem lookupM_eraseKey_ne (l : List (K × Nat)) {k k' : K} (h : k' ≠ k) :
    lookupM (eraseKey l k) k' = lookupM l k' := by
  induction l with
  | nil => simp [eraseKey]
  | cons p rest ih =>
    by_cases hp : p.1 = k
    · have : p.1 ≠ k' := fun hc => h (hc ▸ hp)
      rw [eraseKey, if_pos hp, ih, lookupM, if_neg this]
    · by_cases hp' : p.1 = k'
      · rw [eraseKey, if_neg hp, lookupM, if_pos hp', lookupM, if_pos hp']
      · rw [eraseKey, if_neg hp, lookupM, if_neg hp', lookupM, if_neg hp', ih]

theorem eraseKey_of_not_mem {l : List (K × Nat)} {k : K}
    (h : k ∉ l.map Prod.fst) : eraseKey l k = l := by
  induction l with
  | nil => rfl
  | cons p rest ih =>
    simp only [List.map_cons, List.mem_cons, not_or] at h
    rw [eraseKey, if_neg (fun hc => h.1 hc.symm), ih h.2]

theorem length_eraseKey_add_one {l : List (K × Nat)} {k : K} {i : Nat}
    (hk : (l.map Prod.fst).Nodup) (h : (k, i) ∈ l) :
    (eraseKey l k).length + 1 = l.length := by
  induction l with
  | nil => simp at h
  | cons p rest ih =>
    simp only [List.map_cons, List.nodup_cons] at hk
    rcases List.mem_cons.mp h with heq | hmem
    · subst heq
      rw [eraseKey, if_pos rfl,
        eraseKey_of_not_mem (by simpa using hk.1)]
      simp
    · have hne : p.1 ≠ k := by
        intro hpk
        exact hk.1 (hpk ▸ List.mem_map.mpr ⟨(k, i), hmem, rfl⟩)
      rw [eraseKey, if_neg hne]
      simp only [List.length_cons]
      have := ih hk.2 hmem
      omega

theorem entry_eq_of_keys_nodup {l : List (K × Nat)}
    (h : (l.map Prod.fst).Nodup) {p q : K × Nat}
    (hp : p ∈ l) (hq : q ∈ l) (hfst : p.1 = q.1) : p = q := by
  induction l with
  | nil => simp at hp
  | cons r rest ih =>
    simp only [List.map_cons, List.nodup_cons] at h
    rcases List.mem_cons.mp hp with rfl | hp' <;>
      rcases List.mem_cons.mp hq with rfl | hq'
    · rfl
    · have hq1 : q.1 ∈ rest.map Prod.fst := List.mem_map.mpr ⟨q, hq', rfl⟩
      rw [← hfst] at hq1
      exact absurd hq1 h.1
    · have hp1 : p.1 ∈ rest.map Prod.fst := List.mem_map.mpr ⟨p, hp', rfl⟩
      rw [hfst] at hp1
      exact absurd hp1 h.1
    · exact ih h.2 hp' hq'

theorem entry_eq_of_ids_nodup {l : List (K × Nat)}
    (h : (l.map Prod.snd).Nodup) {p q : K × Nat}
    (hp : p ∈ l) (hq : q ∈ l) (hsnd : p.2 = q.2) : p = q := by
  induction l with
  | nil => simp at hp
  | cons r rest ih =>
    simp only [List.map_cons, List.nodup_cons] at h
    rcases List.mem_cons.mp hp with rfl | hp' <;>
      rcases List.mem_cons.mp hq with rfl | hq'
    · rfl
    · have hq1 : q.2 ∈ rest.map Prod.snd := List.mem_map.mpr ⟨q, hq', rfl⟩
      rw [← hsnd] at hq1
      exact absurd hq1 h.1
    · have hp1 : p.2 ∈ rest.map Prod.snd := List.mem_map.mpr ⟨p, hp', rfl⟩
      rw [hsnd] at hp1
      exact absurd hp1 h.1
    · exact ih h.2 hp' hq'

/-! ### costSum lemmas -/

theorem costSum_nil (store : List (NodeData K V)) : costSum store [] = 0 :=
  rfl

theorem costSum_cons (store : List (NodeData K V)) (i : Nat) (l : List Nat) :
    costSum store (i :: l) = (nodeAt store i).cost + costSum store l := by
  simp [costSum]

theorem costSum_perm (store : List (NodeData K V)) {l1 l2 : List Nat}
    (h : List.Perm l1 l2) : costSum store l1 = costSum store l2 :=
  (h.map _).sum_eq

theorem costSum_erase (store : List (NodeData K V)) {l : List Nat} {i : Nat}
    (h : i ∈ l) :
    costSum store l = (nodeAt store i).cost + costSum store (l.erase i) := by
  rw [costSum_perm store (List.perm_cons_erase h), costSum_cons]

theorem nodeAt_append {store store' : List (NodeData K V)} {i : Nat}
    (h : i < store.length) : nodeAt (store ++ store') i = nodeAt store i := by
  unfold nodeAt
  exact List.getD_append _ _ _ _ h

theorem nodeAt_append_self (store : List (NodeData K V)) (nd : NodeData K V) :
    nodeAt (store ++ [nd]) store.length = nd := by
  unfold nodeAt
  rw [List.getD_append_right _ _ _ _ (le_refl _)]
  simp

theorem nodeAt_set_ne {store : List (NodeData K V)} {nd : NodeData K V}
    {i j : Nat} (h : i ≠ j) : nodeAt (store.set i nd) j = nodeAt store j := by
  unfold nodeAt
  simp [List.getD_eq_getElem?_getD, List.getElem?_set_ne h]

theorem nodeAt_set_self {store : List (NodeData K V)} {nd : NodeData K V}
    {i : Nat} (h : i < store.length) : nodeAt (store.set i nd) i = nd := by
  unfold nodeAt
  simp [List.getD_eq_getElem?_getD, List.getElem?_set_eq_of_lt nd h]

theorem costSum_append (store : List (NodeData K V))
    (store' : List (NodeData K V)) {l : List Nat}
    (h : ∀ i ∈ l, i < store.length) :
    costSum (store ++ store') l = costSum store l := by
  induction l with
  | nil => rfl
  | cons j rest ih =>
    rw [costSum_cons, costSum_cons, nodeAt_append (h j (List.mem_cons_self _ _)),
      ih (fun i hi => h i (List.mem_cons_of_mem _ hi))]

theorem costSum_set (store : List (NodeData K V)) (nd : NodeData K V)
    {i : Nat} {l : List Nat} (h : i ∉ l) :
    costSum (store.set i nd) l = costSum store l := by
  induction l with
  | nil => rfl
  | cons j rest ih =>
    have hij : i ≠ j := fun hc => h (hc ▸ List.mem_cons_self _ _)
    rw [costSum_cons, costSum_cons, nodeAt_set_ne hij,
      ih (fun hc => h (List.mem_cons_of_mem _ hc))]

theorem nodeAt_mem {store : List (NodeData K V)} {i : Nat}
    (h : i < store.length) : nodeAt store i ∈ store := by
  unfold nodeAt
  rw [List.getD_eq_getElem store default h]
  exact List.getElem_mem h

theorem costSum_nonneg {store : List (NodeData K V)} {l : List Nat}
    (hc : ∀ nd ∈ store, 0 ≤ nd.cost) (hl : ∀ i ∈ l, i < store.length) :
    0 ≤ costSum store l := by
  induction l with
  | nil => simp [costSum_nil]
  | cons j rest ih =>
    rw [costSum_cons]
    have h1 : 0 ≤ (nodeAt store j).cost :=
      hc _ (nodeAt_mem (hl j (List.mem_cons_self _ _)))
    have h2 : 0 ≤ costSum store rest :=
      ih (fun i hi => hl i (List.mem_cons_of_mem _ hi))
    omega

/-! ### The shard invariant -/

/-- Structural consistency of a shard (spec section 3): map and list agree
(each mapped node is resident, each resident node is mapped, keys and node
identities are unique), the `len` and `cost` counters match the map and
the list, all stored costs are non-negative, the 2Q bookkeeping is
consistent (A1in tracks resident nodes; no key is simultaneously in A1in
and in the ghost queue), the LRU policy keeps no policy state, and the
per-shard capacities are at least 1 (guaranteed by cache.go New and the
twoq.go New clamps). -/
@[mk_iff sInv_iff]
structure SInv (s : Shard K V) : Prop where
  mKeys : (s.m.map Prod.fst).Nodup
  mIds : (s.m.map Prod.snd).Nodup
  ordNodup : s.order.Nodup
  mem_order : ∀ p ∈ s.m, p.2 ∈ s.order
  idLt : ∀ p ∈ s.m, p.2 < s.store.length
  keyEq : ∀ p ∈ s.m, (nodeAt s.store p.2).key = p.1
  order_m : ∀ i ∈ s.order, ∃ p ∈ s.m, p.2 = i
  lenM : s.len = (s.m.length : Int)
  lenOrd : s.len = (s.order.length : Int)
  costEq : s.cost = costSum s.store s.order
  costNN : ∀ nd ∈ s.store, 0 ≤ nd.cost
  a1inSub : ∀ i ∈ s.a1in, i ∈ s.order
  a1inNodup : s.a1in.Nodup
  ghostNodup : s.ghost.Nodup
  disj : ∀ i ∈ s.a1in, (nodeAt s.store i).key ∉ s.ghost
  lruEmpty : s.pol = Pol.lru → s.a1in = [] ∧ s.ghost = []
  capPos : 1 ≤ s.cap
  capInPos : 1 ≤ s.capIn

instance (s : Shard K V) : Decidable (SInv s) :=
  decidable_of_iff' _ (sInv_iff s)

/-- Full shard invariant: structural consistency plus the externally
observable limits (claim C1): `len ≤ cap` and, when cost limiting is on,
`cost ≤ maxCost`. -/
def ShardInv (s : Shard K V) : Prop :=
  SInv s ∧ s.len ≤ s.cap ∧ (0 < s.maxCost → s.cost ≤ s.maxCost)

instance (s : Shard K V) : Decidable (ShardInv s) := by
  unfold ShardInv
  infer_instance

theorem SInv.orderLt {s : Shard K V} (hs : SInv s) :
    ∀ i ∈ s.order, i < s.store.length := by
  intro i hi
  obtain ⟨p, hp, hpi⟩ := hs.order_m i hi
  rw [← hpi]
  exact hs.idLt p hp

theorem SInv.keyInj {s : Shard K V} (hs : SInv s) {i j : Nat}
    (hi : i ∈ s.order) (hj : j ∈ s.order) (hne : i ≠ j) :
    (nodeAt s.store i).key ≠ (nodeAt s.store j).key := by
  obtain ⟨p, hp, hpi⟩ := hs.order_m i hi
  obtain ⟨q, hq, hqj⟩ := hs.order_m j hj
  intro hkey
  have hki : (nodeAt s.store i).key = p.1 := by
    rw [← hpi]
    exact hs.keyEq p hp
  have hkj : (nodeAt s.store j).key = q.1 := by
    rw [← hqj]
    exact hs.keyEq q hq
  have hpq : p = q :=
    entry_eq_of_keys_nodup hs.mKeys hp hq (by rw [← hki, ← hkj]; exact hkey)
  exact hne (by rw [← hpi, ← hqj, hpq])

theorem SInv.lookup_facts {s : Shard K V} (hs : SInv s) {k : K} {i : Nat}
    (h : lookupM s.m k = some i) :
    i ∈ s.order ∧ i < s.store.length ∧ (nodeAt s.store i).key = k := by
  have hmem : (k, i) ∈ s.m := lookupM_some_mem h
  exact ⟨hs.mem_order _ hmem, hs.idLt _ hmem, hs.keyEq _ hmem⟩

theorem SInv.costNonneg {s : Shard K V} (hs : SInv s) : 0 ≤ s.cost := by
  rw [hs.costEq]
  exact costSum_nonneg hs.costNN hs.orderLt

/-! ### trimGhost lemmas -/

theorem trimGhost_sublist (g : List K) (c : Int) :
    List.Sublist (trimGhost g c) g := by
  induction g, c using trimGhost.induct with
  | case1 c h1 =>
    rw [trimGhost]
    simp
  | case2 g c h1 h2 ih =>
    rw [trimGhost, if_pos h1, dif_neg h2]
    exact ih.trans (List.dropLast_sublist g)
  | case3 g c h1 =>
    rw [trimGhost, if_neg h1]

theorem mem_of_mem_trimGhost {g : List K} {c : Int} {x : K}
    (h : x ∈ trimGhost g c) : x ∈ g :=
  (trimGhost_sublist g c).subset h

theorem trimGhost_nodup {g : List K} {c : Int} (h : g.Nodup) :
    (trimGhost g c).Nodup :=
  h.sublist (trimGhost_sublist g c)

/-! ### Preservation of the invariant by the removal path -/

/-- Behaviour of the policy OnRemove callbacks on the policy state, under
the invariant: the new A1in is a subset of the old one not containing the
removed node, A1in and the ghosts stay duplicate-free and key-disjoint,
and the LRU policy state stays empty. -/
theorem polOnRemove_spec {s : Shard K V} (hs : SInv s) (i : Nat) :
    (∀ j ∈ (polOnRemove s i).a1in, j ∈ s.a1in ∧ j ≠ i) ∧
    (polOnRemove s i).a1in.Nodup ∧
    (polOnRemove s i).ghost.Nodup ∧
    (∀ j ∈ (polOnRemove s i).a1in,
      (nodeAt s.store j).key ∉ (polOnRemove s i).ghost) ∧
    (s.pol = Pol.lru → (polOnRemove s i).a1in = [] ∧
      (polOnRemove s i).ghost = []) := by
  unfold polOnRemove
  split
  case h_1 heq =>
    obtain ⟨ha, hg⟩ := hs.lruEmpty heq
    refine ⟨?_, hs.a1inNodup, hs.ghostNodup, ?_, fun _ => ⟨ha, hg⟩⟩
    · intro j hj
      rw [ha] at hj
      simp at hj
    · intro j hj
      rw [ha] at hj
      simp at hj
  case h_2 heq =>
    split
    case isTrue hin =>
      simp only
      have hi_ord : i ∈ s.order := hs.a1inSub i hin
      refine ⟨?_, hs.a1inNodup.erase i, ?_, ?_, ?_⟩
      · intro j hj
        have := (hs.a1inNodup.mem_erase_iff).mp hj
        exact ⟨this.2, this.1⟩
      · refine trimGhost_nodup ?_
        refine List.nodup_cons.mpr ⟨hs.ghostNodup.not_mem_erase, ?_⟩
        exact hs.ghostNodup.erase _
      · intro j hj hmem
        have hj' := (hs.a1inNodup.mem_erase_iff).mp hj
        have hj_ord : j ∈ s.order := hs.a1inSub j hj'.2
        have := mem_of_mem_trimGhost hmem
        rcases List.mem_cons.mp this with hkey | htl
        · exact hs.keyInj hj_ord hi_ord hj'.1 hkey
        · exact hs.disj j hj'.2 (List.mem_of_mem_erase htl)
      · intro hl
        rw [hl] at heq
        cases heq
    case isFalse hout =>
      refine ⟨?_, hs.a1inNodup, hs.ghostNodup, hs.disj, ?_⟩
      · intro j hj
        refine ⟨hj, ?_⟩
        intro hji
        exact hout (hji ▸ hj)
      · intro hl
        rw [hl] at heq
        cases heq

/-- Invariance of the structural invariant under pure counter/trace
updates (the invariant does not mention hits, misses, evicts or events). -/
theorem sinv_counters {s : Shard K V} (hs : SInv s) (h m e : Nat)
    (ev : List MEvent) :
    SInv { s with hits := h, misses := m, evicts := e, events := ev } := by
  cases hs
  constructor <;> assumption

/-- The removal tail (policy OnRemove, unlink, map delete) preserves the
structural invariant and performs exact `len`/`cost` bookkeeping: given
that `(k, i)` is an entry of the map, the entry count drops by one, the
cost drops by exactly the node's cost (the defensive clamp never fires),
and `k` is no longer mapped. -/
theorem sinv_removeCore {s : Shard K V} (hs : SInv s) {k : K} {i : Nat}
    (hmem : (k, i) ∈ s.m) :
    SInv (removeCore s i k) ∧
    (removeCore s i k).len = s.len - 1 ∧
    (removeCore s i k).cost = s.cost - (nodeAt s.store i).cost ∧
    0 ≤ (nodeAt s.store i).cost ∧
    (removeCore s i k).order = s.order.erase i ∧
    (removeCore s i k).store = s.store ∧
    (removeCore s i k).m = eraseKey s.m k ∧
    (removeCore s i k).cap = s.cap ∧
    (removeCore s i k).maxCost = s.maxCost ∧
    (removeCore s i k).pol = s.pol ∧
    (removeCore s i k).capIn = s.capIn ∧
    (removeCore s i k).capGhost = s.capGhost ∧
    (removeCore s i k).hits = s.hits ∧
    (removeCore s i k).misses = s.misses ∧
    (removeCore s i k).evicts = s.evicts ∧
    (removeCore s i k).events = s.events ∧
    lookupM (removeCore s i k).m k = none := by
  obtain ⟨a, g, hpr⟩ := polOnRemove_eq s i
  obtain ⟨hsub, hand, hgnd, hdisj, hlru⟩ := polOnRemove_spec hs i
  rw [hpr] at hsub hand hgnd hdisj hlru
  have hi_ord : i ∈ s.order := hs.mem_order _ hmem
  have hi_lt : i < s.store.length := hs.idLt _ hmem
  have hkey : (nodeAt s.store i).key = k := hs.keyEq _ hmem
  have hclamp : 0 ≤ s.cost - (nodeAt s.store i).cost := by
    rw [hs.costEq, costSum_erase s.store hi_ord]
    have : 0 ≤ costSum s.store (s.order.erase i) := by
      refine costSum_nonneg hs.costNN ?_
      intro j hj
      exact hs.orderLt j (List.mem_of_mem_erase hj)
    omega
  have hcost_nn : 0 ≤ (nodeAt s.store i).cost :=
    hs.costNN _ (nodeAt_mem hi_lt)
  have hform : removeCore s i k =
      { s with m := eraseKey s.m k
             , order := s.order.erase i
             , len := s.len - 1
             , cost := s.cost - (nodeAt s.store i).cost
             , a1in := a, ghost := g } := by
    unfold removeCore removeNode
    rw [hpr]
    simp only
    congr 1
    rw [if_neg (by omega)]
  dsimp only at hsub hand hgnd hdisj hlru
  rw [hform]
  refine ⟨?_, rfl, rfl, hcost_nn, rfl, rfl, rfl, rfl, rfl, rfl, rfl, rfl,
    rfl, rfl, rfl, rfl, lookupM_eraseKey_self _ _⟩
  constructor
  · exact hs.mKeys.sublist ((eraseKey_sublist s.m k).map Prod.fst)
  · exact hs.mIds.sublist ((eraseKey_sublist s.m k).map Prod.snd)
  · exact hs.ordNodup.erase i
  · intro p hp
    obtain ⟨hpm, hpk⟩ := mem_eraseKey.mp hp
    have hpo := hs.mem_order p hpm
    have hpi : p.2 ≠ i := by
      intro hpi
      have : p = (k, i) := entry_eq_of_ids_nodup hs.mIds hpm hmem hpi
      exact hpk (by rw [this])
    exact (hs.ordNodup.mem_erase_iff).mpr ⟨hpi, hpo⟩
  · intro p hp
    exact hs.idLt p (mem_eraseKey.mp hp).1
  · intro p hp
    exact hs.keyEq p (mem_eraseKey.mp hp).1
  · intro j hj
    have hj' := (hs.ordNodup.mem_erase_iff).mp hj
    obtain ⟨p, hpm, hpj⟩ := hs.order_m j hj'.2
    refine ⟨p, mem_eraseKey.mpr ⟨hpm, ?_⟩, hpj⟩
    intro hpk
    have : p = (k, i) :=
      entry_eq_of_keys_nodup hs.mKeys hpm hmem hpk
    exact hj'.1 (by rw [← hpj, this])
  · have := length_eraseKey_add_one hs.mKeys hmem
    have hlm := hs.lenM
    simp only
    omega
  · have := List.length_erase_of_mem hi_ord
    have hpos : 0 < s.order.length := List.length_pos.mpr (List.ne_nil_of_mem hi_ord)
    have hlo := hs.lenOrd
    simp only
    rw [this]
    omega
  · simp only
    rw [hs.costEq, costSum_erase s.store hi_ord]
    omega
  · exact hs.costNN
  · intro j hj
    have hj' := hsub j hj
    exact (hs.ordNodup.mem_erase_iff).mpr ⟨hj'.2, hs.a1inSub j hj'.1⟩
  · exact hand
  · exact hgnd
  · exact hdisj
  · exact hlru
  · exact hs.capPos
  · exact hs.capInPos

/-- evictNode preserves the structural invariant when the victim is
resident, with exact bookkeeping of counters, trace and list. -/
theorem sinv_evictNode {s : Shard K V} (hs : SInv s) {i : Nat}
    (hi : i ∈ s.order) (r : EvictReason) :
    SInv (evictNode s i r) ∧
    (evictNode s i r).len = s.len - 1 ∧
    (evictNode s i r).cost = s.cost - (nodeAt s.store i).cost ∧
    0 ≤ (nodeAt s.store i).cost ∧
    (evictNode s i r).order = s.order.erase i ∧
    (evictNode s i r).store = s.store ∧
    (evictNode s i r).cap = s.cap ∧
    (evictNode s i r).maxCost = s.maxCost ∧
    (evictNode s i r).pol = s.pol ∧
    (evictNode s i r).capIn = s.capIn ∧
    (evictNode s i r).capGhost = s.capGhost ∧
    (evictNode s i r).hits = s.hits ∧
    (evictNode s i r).misses = s.misses ∧
    (evictNode s i r).evicts = s.evicts + 1 ∧
    (evictNode s i r).events = s.events ++ [MEvent.evict r] ∧
    (evictNode s i r).m = eraseKey s.m ((nodeAt s.store i).key) ∧
    lookupM (evictNode s i r).m ((nodeAt s.store i).key) = none := by
  obtain ⟨p, hp, hpi⟩ := hs.order_m i hi
  have hkey : (nodeAt s.store i).key = p.1 := by
    rw [← hpi]
    exact hs.keyEq p hp
  have hmem : (p.1, i) ∈ s.m := by
    have : p = (p.1, i) := Prod.ext rfl hpi
    rw [← this]
    exact hp
  obtain ⟨h1, h2, h3, h4, h5, h6, h7, h8, h9, h10, h11, h12, h13, h14, h15,
    h16, h17⟩ := sinv_removeCore hs hmem
  unfold evictNode
  rw [hkey]
  dsimp only
  refine ⟨sinv_counters h1 _ _ _ _, h2, h3, h4, h5, h6, h8, h9, h10, h11,
    h12, h13, h14, ?_, ?_, by rw [h7], h17⟩
  · rw [h15]
  · rw [h16]

/-- One case split step for the enforcement loops: either the loop body
runs (tail present) or the loop exits. -/
theorem back_eq_none_iff (s : Shard K V) : back s = none ↔ s.order = [] := by
  unfold back
  exact List.getLast?_eq_none_iff

theorem mem_of_back {s : Shard K V} {t : Nat} (h : back s = some t) :
    t ∈ s.order := by
  unfold back at h
  obtain ⟨hne, heq⟩ := List.mem_getLast?_eq_getLast (l := s.order) h
  exact heq ▸ List.getLast_mem hne

theorem enforceCount_eq_step {s : Shard K V} {t : Nat}
    (h1 : s.len > s.cap) (h2 : back s = some t) :
    enforceCount s = enforceCount (evictNode s t EvictReason.policy) := by
  rw [enforceCount, if_pos h1]
  split
  case h_1 t' heq =>
    rw [h2] at heq
    cases heq
    rfl
  case h_2 heq =>
    rw [h2] at heq
    cases heq

theorem enforceCount_eq_exit_none {s : Shard K V}
    (h1 : s.len > s.cap) (h2 : back s = none) : enforceCount s = s := by
  rw [enforceCount, if_pos h1]
  split
  case h_1 t' heq =>
    rw [h2] at heq
    cases heq
  case h_2 heq => rfl

theorem enforceCount_eq_exit {s : Shard K V} (h1 : ¬s.len > s.cap) :
    enforceCount s = s := by
  rw [enforceCount, if_neg h1]

theorem enforceCost_eq_step {s : Shard K V} {t : Nat}
    (h1 : s.cost > s.maxCost) (h2 : back s = some t) :
    enforceCost s = enforceCost (evictNode s t EvictReason.capacity) := by
  rw [enforceCost, if_pos h1]
  split
  case h_1 t' heq =>
    rw [h2] at heq
    cases heq
    rfl
  case h_2 heq =>
    rw [h2] at heq
    cases heq

theorem enforceCost_eq_exit_none {s : Shard K V}
    (h1 : s.cost > s.maxCost) (h2 : back s = none) : enforceCost s = s := by
  rw [enforceCost, if_pos h1]
  split
  case h_1 t' heq =>
    rw [h2] at heq
    cases heq
  case h_2 heq => rfl

theorem enforceCost_eq_exit {s : Shard K V} (h1 : ¬s.cost > s.maxCost) :
    enforceCost s = s := by
  rw [enforceCost, if_neg h1]

/-- The count-enforcement loop preserves the structural invariant,
establishes `len ≤ cap`, and never increases `len` or `cost`; the shard
configuration, store and read counters are untouched. -/
theorem enforceCount_sinv {s : Shard K V} (hs : SInv s) :
    SInv (enforceCount s) ∧
    (enforceCount s).len ≤ s.cap ∧
    (enforceCount s).len ≤ s.len ∧
    (enforceCount s).cost ≤ s.cost ∧
    (enforceCount s).cap = s.cap ∧
    (enforceCount s).maxCost = s.maxCost ∧
    (enforceCount s).store = s.store ∧
    (enforceCount s).hits = s.hits ∧
    (enforceCount s).misses = s.misses := by
  induction s using enforceCount.induct with
  | case1 s h1 t h2 ih =>
    obtain ⟨hev_sinv, hev_len, hev_cost, hev_cnn, hev_ord, hev_store,
      hev_cap, hev_max, _, _, _, hev_hits, hev_miss, _, _, _, _⟩ :=
      sinv_evictNode hs (mem_of_back h2) EvictReason.policy
    obtain ⟨hsv, hlen, hmono, hcost, hcap, hmax, hstore, hh, hm⟩ :=
      ih hev_sinv
    rw [enforceCount_eq_step h1 h2]
    refine ⟨hsv, ?_, ?_, ?_, ?_, ?_, ?_, ?_, ?_⟩
    · rw [hev_cap] at hlen
      exact hlen
    · rw [hev_len] at hmono
      omega
    · rw [hev_cost] at hcost
      omega
    · rw [hcap, hev_cap]
    · rw [hmax, hev_max]
    · rw [hstore, hev_store]
    · rw [hh, hev_hits]
    · rw [hm, hev_miss]
  | case2 s h1 h2 =>
    rw [enforceCount_eq_exit_none h1 h2]
    have hord : s.order = [] := (back_eq_none_iff s).mp h2
    have hlen0 : s.len = 0 := by
      have := hs.lenOrd
      rw [hord] at this
      simpa using this
    have := hs.capPos
    exact ⟨hs, by omega, le_refl _, le_refl _, rfl, rfl, rfl, rfl, rfl⟩
  | case3 s h1 =>
    rw [enforceCount_eq_exit h1]
    exact ⟨hs, by omega, le_refl _, le_refl _, rfl, rfl, rfl, rfl, rfl⟩

/-- The cost-enforcement loop preserves the structural invariant, bounds
the final cost by `maxCost` whenever `maxCost > 0`, and never increases
`len` or `cost`. -/
theorem enforceCost_sinv {s : Shard K V} (hs : SInv s) :
    SInv (enforceCost s) ∧
    (0 < s.maxCost → (enforceCost s).cost ≤ s.maxCost) ∧
    (enforceCost s).len ≤ s.len ∧
    (enforceCost s).cost ≤ s.cost ∧
    (enforceCost s).cap = s.cap ∧
    (enforceCost s).maxCost = s.maxCost ∧
    (enforceCost s).store = s.store ∧
    (enforceCost s).hits = s.hits ∧
    (enforceCost s).misses = s.misses := by
  induction s using enforceCost.induct with
  | case1 s h1 t h2 ih =>
    obtain ⟨hev_sinv, hev_len, hev_cost, hev_cnn, hev_ord, hev_store,
      hev_cap, hev_max, _, _, _, hev_hits, hev_miss, _, _, _, _⟩ :=
      sinv_evictNode hs (mem_of_back h2) EvictReason.capacity
    obtain ⟨hsv, hbound, hmono, hcost, hcap, hmax, hstore, hh, hm⟩ :=
      ih hev_sinv
    rw [enforceCost_eq_step h1 h2]
    refine ⟨hsv, ?_, ?_, ?_, ?_, ?_, ?_, ?_, ?_⟩
    · intro hpos
      rw [hev_max] at hbound
      exact hbound hpos
    · rw [hev_len] at hmono
      omega
    · rw [hev_cost] at hcost
      omega
    · rw [hcap, hev_cap]
    · rw [hmax, hev_max]
    · rw [hstore, hev_store]
    · rw [hh, hev_hits]
    · rw [hm, hev_miss]
  | case2 s h1 h2 =>
    rw [enforceCost_eq_exit_none h1 h2]
    have hord : s.order = [] := (back_eq_none_iff s).mp h2
    have hcost0 : s.cost = 0 := by
      have := hs.costEq
      rw [hord] at this
      simpa [costSum_nil] using this
    exact ⟨hs, fun hpos => by omega, le_refl _, le_refl _, rfl, rfl, rfl,
      rfl, rfl⟩
  | case3 s h1 =>
    rw [enforceCost_eq_exit h1]
    exact ⟨hs, fun _ => by omega, le_refl _, le_refl _, rfl, rfl, rfl, rfl,
      rfl⟩

/-- Limit enforcement (enforceLimitsLocked) turns any structurally
consistent shard into a fully invariant one, leaving the configuration,
the store and the hit/miss counters untouched. -/
theorem enforceLimits_spec {s : Shard K V} (hs : SInv s) :
    ShardInv (enforceLimits s) ∧
    (enforceLimits s).cap = s.cap ∧
    (enforceLimits s).maxCost = s.maxCost ∧
    (enforceLimits s).store = s.store ∧
    (enforceLimits s).hits = s.hits ∧
    (enforceLimits s).misses = s.misses := by
  obtain ⟨h1sv, h1lim, h1mono, h1cost, h1cap, h1max, h1store, h1hits,
    h1miss⟩ := enforceCount_sinv hs
  unfold enforceLimits
  dsimp only
  by_cases hmc : 0 < (enforceCount s).maxCost
  · obtain ⟨h2sv, h2bound, h2mono, h2cost, h2cap, h2max, h2store, h2hits,
      h2miss⟩ := enforceCost_sinv h1sv
    rw [if_pos hmc]
    refine ⟨⟨sinv_counters h2sv _ _ _ _, ?_, ?_⟩, ?_, ?_, ?_, ?_, ?_⟩
    · show (enforceCost (enforceCount s)).len ≤ (enforceCost (enforceCount s)).cap
      rw [h2cap, h1cap]
      omega
    · intro hpos
      show (enforceCost (enforceCount s)).cost ≤ (enforceCost (enforceCount s)).maxCost
      rw [h2max, h1max]
      rw [h2max, h1max] at hpos
      rw [h1max] at h2bound
      exact h2bound (by omega)
    · show (enforceCost (enforceCount s)).cap = s.cap
      rw [h2cap, h1cap]
    · show (enforceCost (enforceCount s)).maxCost = s.maxCost
      rw [h2max, h1max]
    · show (enforceCost (enforceCount s)).store = s.store
      rw [h2store, h1store]
    · show (enforceCost (enforceCount s)).hits = s.hits
      rw [h2hits, h1hits]
    · show (enforceCost (enforceCount s)).misses = s.misses
      rw [h2miss, h1miss]
  · rw [if_neg hmc]
    refine ⟨⟨sinv_counters h1sv _ _ _ _, ?_, ?_⟩, h1cap, h1max, h1store,
      h1hits, h1miss⟩
    · show (enforceCount s).len ≤ (enforceCount s).cap
      rw [h1cap]
      omega
    · intro hpos
      show (enforceCount s).cost ≤ (enforceCount s).maxCost
      exact absurd hpos hmc

/-! ### Preservation of the invariant by the insertion path -/

/-- Common shape of the shard state reached by Add/Set on a missing key
after the map insertion and the policy OnAdd pushed the fresh node to the
MRU head: structural consistency holds again for any policy bookkeeping
satisfying the stated conditions. -/
theorem sinv_insertMid {s : Shard K V} (hs : SInv s) {k : K} {v : V}
    {ttl c : Int} (hl : lookupM s.m k = none) (hc : 0 ≤ c)
    {a1in' : List Nat} {ghost' : List K}
    (h1 : ∀ j ∈ a1in', j = s.store.length ∨ j ∈ s.a1in)
    (h2 : a1in'.Nodup)
    (h3 : ghost'.Nodup)
    (h4 : ∀ j ∈ a1in',
      (nodeAt (s.store ++ [⟨k, v, ttl, c⟩]) j).key ∉ ghost')
    (h5 : s.pol = Pol.lru → a1in' = [] ∧ ghost' = []) :
    SInv { s with store := s.store ++ [⟨k, v, ttl, c⟩]
                , m := (k, s.store.length) :: s.m
                , order := s.store.length :: s.order
                , len := s.len + 1
                , cost := s.cost + c
                , a1in := a1in', ghost := ghost' } := by
  have hk : k ∉ s.m.map Prod.fst := (lookupM_eq_none_iff _ _).mp hl
  have hiM : s.store.length ∉ s.m.map Prod.snd := by
    intro hmem
    obtain ⟨p, hp, hpi⟩ := List.mem_map.mp hmem
    have := hs.idLt p hp
    omega
  have hiOrd : s.store.length ∉ s.order := by
    intro hmem
    have := hs.orderLt _ hmem
    omega
  constructor
  · exact List.nodup_cons.mpr ⟨hk, hs.mKeys⟩
  · exact List.nodup_cons.mpr ⟨hiM, hs.mIds⟩
  · exact List.nodup_cons.mpr ⟨hiOrd, hs.ordNodup⟩
  · intro p hp
    rcases List.mem_cons.mp hp with rfl | hp'
    · exact List.mem_cons_self _ _
    · exact List.mem_cons_of_mem _ (hs.mem_order p hp')
  · intro p hp
    simp only [List.length_append, List.length_cons, List.length_nil]
    rcases List.mem_cons.mp hp with rfl | hp'
    · omega
    · have := hs.idLt p hp'
      omega
  · intro p hp
    rcases List.mem_cons.mp hp with rfl | hp'
    · simp only
      rw [nodeAt_append_self]
    · simp only
      rw [nodeAt_append (hs.idLt p hp')]
      exact hs.keyEq p hp'
  · intro j hj
    rcases List.mem_cons.mp hj with heq | hj'
    · exact ⟨(k, s.store.length), List.mem_cons_self _ _, heq.symm⟩
    · obtain ⟨p, hp, hpj⟩ := hs.order_m j hj'
      exact ⟨p, List.mem_cons_of_mem _ hp, hpj⟩
  · have := hs.lenM
    simp only [List.length_cons]
    push_cast
    omega
  · have := hs.lenOrd
    simp only [List.length_cons]
    push_cast
    omega
  · simp only
    rw [costSum_cons, nodeAt_append_self,
      costSum_append s.store [⟨k, v, ttl, c⟩] hs.orderLt, ← hs.costEq]
    dsimp only
    omega
  · intro nd hnd
    rcases List.mem_append.mp hnd with hnd' | hnd'
    · exact hs.costNN nd hnd'
    · rcases List.mem_singleton.mp hnd' with rfl
      exact hc
  · intro j hj
    rcases h1 j hj with rfl | hj'
    · exact List.mem_cons_self _ _
    · exact List.mem_cons_of_mem _ (hs.a1inSub j hj')
  · exact h2
  · exact h3
  · exact h4
  · exact h5
  · exact hs.capPos
  · exact hs.capInPos

/-- The count-enforcement loop never evicts the MRU head (the head can be
the tail only when it is the sole resident entry, and then `len = 1 ≤ cap`
stops the loop), so both the head and its map entry survive. -/
theorem enforceCount_preserves_head {s : Shard K V} (hs : SInv s) {i : Nat}
    {k : K} (hh : s.order.head? = some i) (hl : lookupM s.m k = some i) :
    lookupM (enforceCount s).m k = some i ∧
    (enforceCount s).order.head? = some i := by
  induction s using enforceCount.induct with
  | case1 s h1 t h2 ih =>
    obtain ⟨rest, hord⟩ : ∃ rest, s.order = i :: rest := by
      cases hord : s.order with
      | nil =>
        rw [hord] at hh
        simp at hh
      | cons o rest =>
        rw [hord] at hh
        simp only [List.head?_cons, Option.some.injEq] at hh
        exact ⟨rest, by rw [hh]⟩
    cases hrest : rest with
    | nil =>
      exfalso
      have hlen : s.len = 1 := by
        have := hs.lenOrd
        rw [hord, hrest] at this
        simpa using this
      have := hs.capPos
      omega
    | cons b l2 =>
      have hti : t ∈ rest := by
        have hb : s.order.getLast? = rest.getLast? := by
          rw [hord, hrest]
          exact List.getLast?_cons_cons
        unfold back at h2
        rw [hb] at h2
        obtain ⟨hne, heq⟩ := List.mem_getLast?_eq_getLast (l := rest) h2
        exact heq ▸ List.getLast_mem hne
      have htne : t ≠ i := by
        intro hti'
        have := hs.ordNodup
        rw [hord] at this
        exact (List.nodup_cons.mp this).1 (hti' ▸ hti)
      obtain ⟨hev_sinv, _, _, _, hev_ord, hev_store, _, _, _, _, _, _, _, _,
        _, hev_m, _⟩ := sinv_evictNode hs (mem_of_back h2) EvictReason.policy
      have hkeyi : (nodeAt s.store i).key = k :=
        (hs.lookup_facts hl).2.2
      have hkeyt : (nodeAt s.store t).key ≠ k := by
        intro hkt
        exact hs.keyInj (mem_of_back h2) (hord ▸ List.mem_cons_self _ _)
          htne (by rw [hkt, hkeyi])
      have hl' : lookupM (evictNode s t EvictReason.policy).m k = some i := by
        rw [hev_m, lookupM_eraseKey_ne _ (fun hc => hkeyt hc.symm)]
        exact hl
      have hh' : (evictNode s t EvictReason.policy).order.head? = some i := by
        rw [hev_ord, hord,
          List.erase_cons_tail (by simp only [beq_iff_eq]; omega)]
        simp
      rw [enforceCount_eq_step h1 h2]
      exact ih hev_sinv hh' hl'
  | case2 s h1 h2 =>
    rw [enforceCount_eq_exit_none h1 h2]
    exact ⟨hl, hh⟩
  | case3 s h1 =>
    rw [enforceCount_eq_exit h1]
    exact ⟨hl, hh⟩

/-- With cost limiting disabled, limit enforcement preserves the MRU
head's map entry. -/
theorem enforceLimits_nocost_lookup {s : Shard K V} (hs : SInv s) {i : Nat}
    {k : K} (hh : s.order.head? = some i) (hl : lookupM s.m k = some i)
    (hmc : s.maxCost ≤ 0) :
    lookupM (enforceLimits s).m k = some i := by
  obtain ⟨hcl, hch⟩ := enforceCount_preserves_head hs hh hl
  have hmax : (enforceCount s).maxCost = s.maxCost :=
    (enforceCount_sinv hs).2.2.2.2.2.1
  unfold enforceLimits
  dsimp only
  rw [if_neg (by omega : ¬0 < (enforceCount s).maxCost)]
  exact hcl

/-- Behaviour of policy OnAdd on the state reached inside Add / Set(miss)
right after the node allocation and map insert: both policies push the
fresh node to the MRU head, structural consistency is restored, and any
nominated eviction candidate is a resident node different from the fresh
one (2Q proposes the LRU of A1in, and `capIn ≥ 1` keeps the fresh node
out of that position). -/
theorem polOnAdd_fresh_spec {s : Shard K V} (hs : SInv s) {k : K} {v : V}
    {ttl c : Int} (hl : lookupM s.m k = none) (hc : 0 ≤ c)
    {t : Shard K V}
    (ht : t = { s with store := s.store ++ [⟨k, v, ttl, c⟩]
                     , m := (k, s.store.length) :: s.m }) :
    SInv (polOnAdd t s.store.length).1 ∧
    (polOnAdd t s.store.length).1.order = s.store.length :: s.order ∧
    (polOnAdd t s.store.length).1.m = (k, s.store.length) :: s.m ∧
    (polOnAdd t s.store.length).1.store = s.store ++ [⟨k, v, ttl, c⟩] ∧
    (polOnAdd t s.store.length).1.len = s.len + 1 ∧
    (polOnAdd t s.store.length).1.cost = s.cost + c ∧
    (polOnAdd t s.store.length).1.cap = s.cap ∧
    (polOnAdd t s.store.length).1.maxCost = s.maxCost ∧
    (polOnAdd t s.store.length).1.hits = s.hits ∧
    (polOnAdd t s.store.length).1.misses = s.misses ∧
    (polOnAdd t s.store.length).1.evicts = s.evicts ∧
    (polOnAdd t s.store.length).1.events = s.events ∧
    (∀ j, (polOnAdd t s.store.length).2 = some j →
      j ∈ (polOnAdd t s.store.length).1.order ∧ j ≠ s.store.length) := by
  have hfree : ∀ j ∈ s.a1in, j < s.store.length := by
    intro j hj
    exact hs.orderLt j (hs.a1inSub j hj)
  have hdisj' : ∀ j ∈ s.a1in,
      (nodeAt (s.store ++ [⟨k, v, ttl, c⟩]) j).key ∉ s.ghost := by
    intro j hj
    rw [nodeAt_append (hfree j hj)]
    exact hs.disj j hj
  subst ht
  unfold polOnAdd
  dsimp only
  cases hpol : s.pol with
  | lru =>
    dsimp only [insertFront]
    rw [nodeAt_append_self]
    dsimp only
    refine ⟨?_, rfl, rfl, rfl, rfl, rfl, rfl, rfl, rfl, rfl, rfl, rfl, ?_⟩
    · exact hpol ▸ sinv_insertMid hs hl hc (fun j hj => Or.inr hj)
        hs.a1inNodup hs.ghostNodup hdisj' hs.lruEmpty
    · intro j hj
      cases hj
  | twoq =>
    unfold twoqOnAdd
    dsimp only [insertFront]
    rw [nodeAt_append_self]
    dsimp only
    by_cases hg : k ∈ s.ghost
    · rw [if_pos hg]
      dsimp only
      refine ⟨?_, rfl, rfl, rfl, rfl, rfl, rfl, rfl, rfl, rfl, rfl, rfl, ?_⟩
      · refine hpol ▸ sinv_insertMid hs hl hc (fun j hj => Or.inr hj)
          hs.a1inNodup (hs.ghostNodup.erase k) ?_ ?_
        · intro j hj hmem
          exact hdisj' j hj (List.mem_of_mem_erase hmem)
        · intro hp
          rw [hp] at hpol
          cases hpol
      · intro j hj
        cases hj
    · rw [if_neg hg]
      have hSI : SInv { s with
          store := s.store ++ [⟨k, v, ttl, c⟩],
          m := (k, s.store.length) :: s.m,
          order := s.store.length :: s.order,
          len := s.len + 1,
          cost := s.cost + c,
          pol := Pol.twoq,
          a1in := s.store.length :: s.a1in,
          ghost := s.ghost } := by
        refine hpol ▸ sinv_insertMid hs hl hc ?_ ?_ hs.ghostNodup ?_ ?_
        · intro j hj
          rcases List.mem_cons.mp hj with heq | hj'
          · exact Or.inl heq
          · exact Or.inr hj'
        · refine List.nodup_cons.mpr ⟨?_, hs.a1inNodup⟩
          intro hmem
          have := hfree _ hmem
          omega
        · intro j hj
          rcases List.mem_cons.mp hj with rfl | hj'
          · rw [nodeAt_append_self]
            exact hg
          · exact hdisj' j hj'
        · intro hp
          rw [hp] at hpol
          cases hpol
      split
      next hcond =>
        dsimp only
        refine ⟨hSI, rfl, rfl, rfl, rfl, rfl, rfl, rfl, rfl, rfl, rfl, rfl,
          ?_⟩
        intro j hj
        cases ha : s.a1in with
        | nil =>
          exfalso
          rw [ha] at hcond
          simp only [List.length_cons, List.length_nil] at hcond
          have := hs.capInPos
          norm_num at hcond
          omega
        | cons b l2 =>
          rw [ha, List.getLast?_cons_cons] at hj
          have hjm : j ∈ s.a1in := by
            rw [ha]
            obtain ⟨hne, heq⟩ :=
              List.mem_getLast?_eq_getLast (l := b :: l2) hj
            exact heq ▸ List.getLast_mem hne
          constructor
          · exact List.mem_cons_of_mem _ (hs.a1inSub j hjm)
          · have := hfree j hjm
            omega
      next hcond =>
        dsimp only
        refine ⟨hSI, rfl, rfl, rfl, rfl, rfl, rfl, rfl, rfl, rfl, rfl, rfl,
          ?_⟩
        intro j hj
        cases hj

/-- The new-entry path shared by Add and Set (shard.go) restores the full
invariant; with cost limiting disabled the fresh key is guaranteed to
still be resident when the operation returns. -/
theorem shardInsertNew_spec {s : Shard K V} (hs : SInv s) {k : K} {v : V}
    {ttl c : Int} (hl : lookupM s.m k = none) (hc : 0 ≤ c) :
    ShardInv (shardInsertNew s k v ttl c) ∧
    (shardInsertNew s k v ttl c).cap = s.cap ∧
    (shardInsertNew s k v ttl c).maxCost = s.maxCost ∧
    (shardInsertNew s k v ttl c).store = s.store ++ [⟨k, v, ttl, c⟩] ∧
    (shardInsertNew s k v ttl c).hits = s.hits ∧
    (shardInsertNew s k v ttl c).misses = s.misses ∧
    (s.maxCost ≤ 0 →
      lookupM (shardInsertNew s k v ttl c).m k = some s.store.length) := by
  obtain ⟨hA, hOrd, hM, hStore, hLen, hCost, hCap, hMax, hHits, hMiss,
    hEvicts, hEvents, hCand⟩ := polOnAdd_fresh_spec hs hl hc rfl
  have hLmem : s.store.length ∈ (polOnAdd { s with
      store := s.store ++ [⟨k, v, ttl, c⟩]
    , m := (k, s.store.length) :: s.m } s.store.length).1.order := by
    rw [hOrd]
    exact List.mem_cons_self _ _
  unfold shardInsertNew
  dsimp only
  cases hcand2 : (polOnAdd { s with
      store := s.store ++ [⟨k, v, ttl, c⟩]
    , m := (k, s.store.length) :: s.m } s.store.length).2 with
  | none =>
    dsimp only
    obtain ⟨hEL, hELcap, hELmax, hELstore, hELhits, hELmiss⟩ :=
      enforceLimits_spec hA
    refine ⟨hEL, ?_, ?_, ?_, ?_, ?_, ?_⟩
    · rw [hELcap, hCap]
    · rw [hELmax, hMax]
    · rw [hELstore, hStore]
    · rw [hELhits, hHits]
    · rw [hELmiss, hMiss]
    · intro hmc
      refine enforceLimits_nocost_lookup hA ?_ ?_ ?_
      · rw [hOrd]
        rfl
      · rw [hM]
        simp [lookupM]
      · rw [hMax]
        omega
  | some j =>
    obtain ⟨hjord, hjne⟩ := hCand j hcand2
    dsimp only
    obtain ⟨hE_sinv, _, _, _, hE_ord, hE_store, hE_cap, hE_max, _, _, _,
      hE_hits, hE_miss, _, _, hE_m, _⟩ :=
      sinv_evictNode hA hjord EvictReason.policy
    obtain ⟨hEL, hELcap, hELmax, hELstore, hELhits, hELmiss⟩ :=
      enforceLimits_spec hE_sinv
    refine ⟨hEL, ?_, ?_, ?_, ?_, ?_, ?_⟩
    · rw [hELcap, hE_cap, hCap]
    · rw [hELmax, hE_max, hMax]
    · rw [hELstore, hE_store, hStore]
    · rw [hELhits, hE_hits, hHits]
    · rw [hELmiss, hE_miss, hMiss]
    · intro hmc
      have hkeyL : (nodeAt (polOnAdd { s with
          store := s.store ++ [⟨k, v, ttl, c⟩]
        , m := (k, s.store.length) :: s.m } s.store.length).1.store
          s.store.length).key = k := by
        rw [hStore, nodeAt_append_self]
      have hkeyj : (nodeAt (polOnAdd { s with
          store := s.store ++ [⟨k, v, ttl, c⟩]
        , m := (k, s.store.length) :: s.m } s.store.length).1.store j).key
          ≠ k := by
        intro hkj
        exact hA.keyInj hjord hLmem hjne (by rw [hkj, hkeyL])
      have hlook3 : lookupM (evictNode (polOnAdd { s with
          store := s.store ++ [⟨k, v, ttl, c⟩]
        , m := (k, s.store.length) :: s.m } s.store.length).1 j
          EvictReason.policy).m k = some s.store.length := by
        rw [hE_m, lookupM_eraseKey_ne _ (fun hkk => hkeyj hkk.symm), hM]
        simp [lookupM]
      have hhead3 : (evictNode (polOnAdd { s with
          store := s.store ++ [⟨k, v, ttl, c⟩]
        , m := (k, s.store.length) :: s.m } s.store.length).1 j
          EvictReason.policy).order.head? = some s.store.length := by
        rw [hE_ord, hOrd,
          List.erase_cons_tail (by simp only [beq_iff_eq]; omega)]
        rfl
      refine enforceLimits_nocost_lookup hE_sinv hhead3 hlook3 ?_
      rw [hE_max, hMax]
      omega

/-! ### Preservation of the invariant by the lookup/update path -/

theorem sinv_moveToFront {s : Shard K V} (hs : SInv s) {i : Nat}
    (hi : i ∈ s.order) : SInv (moveToFront s i) := by
  have hperm : List.Perm s.order (i :: s.order.erase i) :=
    List.perm_cons_erase hi
  constructor
  · exact hs.mKeys
  · exact hs.mIds
  · exact hperm.nodup_iff.mp hs.ordNodup
  · intro p hp
    exact hperm.mem_iff.mp (hs.mem_order p hp)
  · exact hs.idLt
  · exact hs.keyEq
  · intro j hj
    exact hs.order_m j (hperm.mem_iff.mpr hj)
  · exact hs.lenM
  · show s.len = ((i :: s.order.erase i).length : Int)
    rw [← hperm.length_eq]
    exact hs.lenOrd
  · show s.cost = costSum s.store (i :: s.order.erase i)
    rw [← costSum_perm s.store hperm]
    exact hs.costEq
  · exact hs.costNN
  · intro j hj
    exact hperm.mem_iff.mp (hs.a1inSub j hj)
  · exact hs.a1inNodup
  · exact hs.ghostNodup
  · exact hs.disj
  · exact hs.lruEmpty
  · exact hs.capPos
  · exact hs.capInPos

theorem sinv_eraseA1in {s : Shard K V} (hs : SInv s) (i : Nat) :
    SInv { s with a1in := s.a1in.erase i } := by
  constructor
  · exact hs.mKeys
  · exact hs.mIds
  · exact hs.ordNodup
  · exact hs.mem_order
  · exact hs.idLt
  · exact hs.keyEq
  · exact hs.order_m
  · exact hs.lenM
  · exact hs.lenOrd
  · exact hs.costEq
  · exact hs.costNN
  · intro j hj
    exact hs.a1inSub j (List.mem_of_mem_erase hj)
  · exact hs.a1inNodup.erase i
  · exact hs.ghostNodup
  · intro j hj
    exact hs.disj j (List.mem_of_mem_erase hj)
  · intro hl
    obtain ⟨ha, hg⟩ := hs.lruEmpty hl
    refine ⟨?_, hg⟩
    rw [ha]
    rfl
  · exact hs.capPos
  · exact hs.capInPos

/-- Policy OnGet (and OnUpdate) preserve the structural invariant and move
the accessed node to the MRU head, leaving everything but the list order
and the 2Q A1in index unchanged. -/
theorem sinv_polOnGet {s : Shard K V} (hs : SInv s) {i : Nat}
    (hi : i ∈ s.order) :
    SInv (polOnGet s i) ∧
    (polOnGet s i).order = i :: s.order.erase i ∧
    (polOnGet s i).m = s.m ∧
    (polOnGet s i).store = s.store ∧
    (polOnGet s i).len = s.len ∧
    (polOnGet s i).cost = s.cost ∧
    (polOnGet s i).cap = s.cap ∧
    (polOnGet s i).maxCost = s.maxCost ∧
    (polOnGet s i).hits = s.hits ∧
    (polOnGet s i).misses = s.misses ∧
    (polOnGet s i).evicts = s.evicts ∧
    (polOnGet s i).events = s.events := by
  unfold polOnGet
  split
  case h_1 heq =>
    exact ⟨sinv_moveToFront hs hi, rfl, rfl, rfl, rfl, rfl, rfl, rfl, rfl,
      rfl, rfl, rfl⟩
  case h_2 heq =>
    dsimp only
    by_cases hin : i ∈ s.a1in
    · rw [if_pos hin]
      have hs1 : SInv { s with a1in := s.a1in.erase i } := sinv_eraseA1in hs i
      exact ⟨sinv_moveToFront hs1 hi, rfl, rfl, rfl, rfl, rfl, rfl, rfl,
        rfl, rfl, rfl, rfl⟩
    · rw [if_neg hin]
      exact ⟨sinv_moveToFront hs hi, rfl, rfl, rfl, rfl, rfl, rfl, rfl, rfl,
        rfl, rfl, rfl⟩

/-- In-place update of a resident node (the Set hit path before
OnUpdate/enforcement): structural consistency is preserved with the cost
counter adjusted by the delta. -/
theorem sinv_setNode {s : Shard K V} (hs : SInv s) {k : K} {i : Nat}
    (hli : lookupM s.m k = some i) {v : V} {ttl c : Int} (hc : 0 ≤ c) :
    SInv { s with
      store := s.store.set i
        { nodeAt s.store i with val := v, exp := ttl, cost := c }
    , cost := s.cost + (c - (nodeAt s.store i).cost) } := by
  obtain ⟨hiord, hilt, hikey⟩ := hs.lookup_facts hli
  have hmem : (k, i) ∈ s.m := lookupM_some_mem hli
  constructor
  · exact hs.mKeys
  · exact hs.mIds
  · exact hs.ordNodup
  · exact hs.mem_order
  · intro p hp
    show p.2 < (s.store.set i _).length
    rw [List.length_set]
    exact hs.idLt p hp
  · intro p hp
    show (nodeAt (s.store.set i _) p.2).key = p.1
    by_cases hpi : p.2 = i
    · have hpk : p = (k, i) :=
        entry_eq_of_ids_nodup hs.mIds hp hmem hpi
      rw [hpi, nodeAt_set_self hilt]
      rw [hpk]
      exact hikey
    · rw [nodeAt_set_ne (fun hc2 => hpi hc2.symm)]
      exact hs.keyEq p hp
  · exact hs.order_m
  · exact hs.lenM
  · exact hs.lenOrd
  · show s.cost + (c - (nodeAt s.store i).cost)
      = costSum (s.store.set i _) s.order
    have hni : i ∉ s.order.erase i := hs.ordNodup.not_mem_erase
    rw [costSum_perm _ (List.perm_cons_erase hiord), costSum_cons,
      nodeAt_set_self hilt, costSum_set _ _ hni]
    have := costSum_erase s.store hiord
    have := hs.costEq
    dsimp only
    omega
  · intro nd hnd
    rcases List.mem_or_eq_of_mem_set hnd with hnd' | rfl
    · exact hs.costNN nd hnd'
    · exact hc
  · exact hs.a1inSub
  · exact hs.a1inNodup
  · exact hs.ghostNodup
  · intro j hj
    show (nodeAt (s.store.set i _) j).key ∉ s.ghost
    by_cases hji : j = i
    · rw [hji, nodeAt_set_self hilt]
      show (nodeAt s.store i).key ∉ s.ghost
      exact hji ▸ hs.disj j hj
    · rw [nodeAt_set_ne (fun hc2 => hji hc2.symm)]
      exact hs.disj j hj
  · exact hs.lruEmpty
  · exact hs.capPos
  · exact hs.capInPos

/-! ### Invariant preservation by the public shard operations (C1) -/

theorem shardAdd_inv {s : Shard K V} (hI : ShardInv s) {k : K} {v : V}
    {ttl c : Int} (hc : 0 ≤ c) : ShardInv (shardAdd s k v ttl c).1 := by
  unfold shardAdd
  cases hli : lookupM s.m k with
  | some i => exact hI
  | none => exact (shardInsertNew_spec hI.1 hli hc).1

theorem shardSet_inv {s : Shard K V} (hI : ShardInv s) {k : K} {v : V}
    {ttl c : Int} (hc : 0 ≤ c) : ShardInv (shardSet s k v ttl c) := by
  unfold shardSet
  cases hli : lookupM s.m k with
  | some i =>
    dsimp only
    have hs1 := @sinv_setNode K V _ _ _ s hI.1 k i hli v ttl c hc
    have hiord : i ∈ s.order := (hI.1.lookup_facts hli).1
    obtain ⟨hs2, _⟩ := sinv_polOnGet hs1 (s := _) hiord
    exact (enforceLimits_spec hs2).1
  | none => exact (shardInsertNew_spec hI.1 hli hc).1

theorem shardGet_inv {s : Shard K V} (hI : ShardInv s) (k : K) (now : Int) :
    ShardInv (shardGet s k now).1 := by
  obtain ⟨hs, hlen, hcost⟩ := hI
  unfold shardGet
  cases hli : lookupM s.m k with
  | none =>
    exact ⟨sinv_counters hs _ _ _ _, hlen, hcost⟩
  | some i =>
    dsimp only
    split
    · obtain ⟨hE_sinv, hE_len, hE_cost, hE_cnn, _, _, hE_cap, hE_max, _, _,
        _, _, _, _, _, _, _⟩ :=
        sinv_evictNode hs (hs.lookup_facts hli).1 EvictReason.ttl
      refine ⟨sinv_counters hE_sinv _ _ _ _, ?_, ?_⟩
      · show (evictNode s i EvictReason.ttl).len
          ≤ (evictNode s i EvictReason.ttl).cap
        rw [hE_len, hE_cap]
        omega
      · intro hpos
        show (evictNode s i EvictReason.ttl).cost
          ≤ (evictNode s i EvictReason.ttl).maxCost
        rw [hE_cost, hE_max]
        rw [hE_max] at hpos
        have := hcost hpos
        omega
    · obtain ⟨hG_sinv, _, _, _, hG_len, hG_cost, hG_cap, hG_max, _⟩ :=
        sinv_polOnGet hs (hs.lookup_facts hli).1
      refine ⟨sinv_counters hG_sinv _ _ _ _, ?_, ?_⟩
      · show (polOnGet s i).len ≤ (polOnGet s i).cap
        rw [hG_len, hG_cap]
        exact hlen
      · intro hpos
        show (polOnGet s i).cost ≤ (polOnGet s i).maxCost
        rw [hG_cost, hG_max]
        rw [hG_max] at hpos
        exact hcost hpos

theorem shardRemove_inv {s : Shard K V} (hI : ShardInv s) (k : K) :
    ShardInv (shardRemove s k).1 := by
  obtain ⟨hs, hlen, hcost⟩ := hI
  unfold shardRemove
  cases hli : lookupM s.m k with
  | none => exact ⟨hs, hlen, hcost⟩
  | some i =>
    dsimp only
    obtain ⟨hR_sinv, hR_len, hR_cost, hR_cnn, _, _, _, hR_cap, hR_max, _⟩ :=
      sinv_removeCore hs (lookupM_some_mem hli)
    refine ⟨hR_sinv, ?_, ?_⟩
    · rw [hR_len, hR_cap]
      omega
    · intro hpos
      rw [hR_cost, hR_max]
      rw [hR_max] at hpos
      have := hcost hpos
      omega

/-- Every public shard operation preserves the full shard invariant. -/
theorem applyOp_inv {s : Shard K V} (hI : ShardInv s) {op : ShardOp K V}
    (hop : GoodOp op) : ShardInv (applyOp s op) := by
  cases op with
  | add k v ttl c => exact shardAdd_inv hI hop
  | set k v ttl c => exact shardSet_inv hI hop
  | get k now => exact shardGet_inv hI k now
  | remove k => exact shardRemove_inv hI k

theorem applyOps_inv {s : Shard K V} (hI : ShardInv s)
    {ops : List (ShardOp K V)} (hops : ∀ op ∈ ops, GoodOp op) :
    ShardInv (applyOps s ops) := by
  induction ops generalizing s with
  | nil => exact hI
  | cons op rest ih =>
    exact ih (applyOp_inv hI (hops op (List.mem_cons_self _ _)))
      (fun o ho => hops o (List.mem_cons_of_mem _ ho))

/-- Claim C1: after every public cache operation (Add, Set, SetWithTTL,
Get, Remove, GetOrLoad — each of which acts on a shard through the four
shard operations modelled by `ShardOp`, with costs clamped non-negative by
`costOf`) returns, every shard satisfies: the number of entries in its
key-to-node map equals its `len` field; the sum of the cost fields of all
resident nodes equals its `cost` field; `len ≤ cap`; and if `maxCost > 0`
then `cost ≤ maxCost`.  Stated for any operation sequence from any state
satisfying the shard invariant (which holds for a freshly constructed
shard). -/
theorem claim1_shard_invariants {s0 : Shard K V} (h0 : ShardInv s0)
    {ops : List (ShardOp K V)} (hops : ∀ op ∈ ops, GoodOp op) :
    ((applyOps s0 ops).m.length : Int) = (applyOps s0 ops).len ∧
    (applyOps s0 ops).cost
      = costSum (applyOps s0 ops).store (applyOps s0 ops).order ∧
    (applyOps s0 ops).len ≤ (applyOps s0 ops).cap ∧
    (0 < (applyOps s0 ops).maxCost →
      (applyOps s0 ops).cost ≤ (applyOps s0 ops).maxCost) := by
  obtain ⟨hs, hlen, hcost⟩ := applyOps_inv h0 hops
  exact ⟨hs.lenM.symm, hs.costEq, hlen, hcost⟩

/-- Concrete operation sequence used by the C1 witness: exercises the 2Q
admission, a policy eviction, a cost update, a TTL expiration on Get, and
an explicit Remove on a shard with cap 2, maxCost 5, capIn 1, capGhost 1. -/
def c1ops : List (ShardOp Nat Nat) :=
  [ShardOp.add 1 10 0 3, ShardOp.add 2 20 0 3, ShardOp.set 2 21 0 2,
   ShardOp.get 1 0, ShardOp.set 3 30 7 1, ShardOp.get 3 10,
   ShardOp.remove 1, ShardOp.get 9 0]

theorem claim1_shard_invariants_witness :
    ((applyOps (mkShard 2 5 Pol.twoq 1 1 : Shard Nat Nat) c1ops).m.length :
        Int)
      = (applyOps (mkShard 2 5 Pol.twoq 1 1 : Shard Nat Nat) c1ops).len ∧
    (applyOps (mkShard 2 5 Pol.twoq 1 1 : Shard Nat Nat) c1ops).cost
      = costSum (applyOps (mkShard 2 5 Pol.twoq 1 1 : Shard Nat Nat)
          c1ops).store
          (applyOps (mkShard 2 5 Pol.twoq 1 1 : Shard Nat Nat) c1ops).order ∧
    (applyOps (mkShard 2 5 Pol.twoq 1 1 : Shard Nat Nat) c1ops).len
      ≤ (applyOps (mkShard 2 5 Pol.twoq 1 1 : Shard Nat Nat) c1ops).cap ∧
    (0 < (applyOps (mkShard 2 5 Pol.twoq 1 1 : Shard Nat Nat) c1ops).maxCost
      → (applyOps (mkShard 2 5 Pol.twoq 1 1 : Shard Nat Nat) c1ops).cost
        ≤ (applyOps (mkShard 2 5 Pol.twoq 1 1 : Shard Nat Nat)
            c1ops).maxCost) :=
  claim1_shard_invariants (by decide) (by decide)

/-- Claim C10: in the 2Q policy, under the shard's calling discipline
(modelled exactly by the shard operations: OnAdd only for a key with no
resident node, OnGet/OnUpdate/OnRemove only on resident nodes), after
every callback returns, no key is simultaneously tracked in A1in and
present in the ghost queue A1out. -/
theorem claim10_a1in_ghost_disjoint {s0 : Shard K V} (h0 : ShardInv s0)
    {ops : List (ShardOp K V)} (hops : ∀ op ∈ ops, GoodOp op) :
    ∀ i ∈ (applyOps s0 ops).a1in,
      (nodeAt (applyOps s0 ops).store i).key ∉ (applyOps s0 ops).ghost :=
  (applyOps_inv h0 hops).1.disj

/-- Concrete operation sequence used by the C10 witness: fills A1in past
capacity so keys are evicted into the ghost queue, then re-adds a ghosted
key (second-chance admission which must remove the ghost entry). -/
def c10ops : List (ShardOp Nat Nat) :=
  [ShardOp.add 1 10 0 0, ShardOp.add 2 20 0 0, ShardOp.add 3 30 0 0,
   ShardOp.add 1 11 0 0, ShardOp.get 2 0, ShardOp.remove 3]

theorem claim10_a1in_ghost_disjoint_witness :
    ((applyOps (mkShard 4 0 Pol.twoq 1 2 : Shard Nat Nat) c10ops).a1in.all
      fun i =>
        decide ((nodeAt (applyOps (mkShard 4 0 Pol.twoq 1 2 : Shard Nat Nat)
            c10ops).store i).key
          ∉ (applyOps (mkShard 4 0 Pol.twoq 1 2 : Shard Nat Nat)
              c10ops).ghost)) = true := by
  rw [List.all_eq_true]
  intro i hi
  exact decide_eq_true
    (claim10_a1in_ghost_disjoint (by decide) (by decide) i hi)

/-! ### Unconditional frame and trace lemmas (for C2 and C6) -/

theorem evictNode_frame (s : Shard K V) (i : Nat) (r : EvictReason) :
    (evictNode s i r).events = s.events ++ [MEvent.evict r] ∧
    (evictNode s i r).evicts = s.evicts + 1 ∧
    (evictNode s i r).len = s.len - 1 ∧
    (evictNode s i r).cap = s.cap ∧
    (evictNode s i r).maxCost = s.maxCost ∧
    (evictNode s i r).store = s.store ∧
    (evictNode s i r).hits = s.hits ∧
    (evictNode s i r).misses = s.misses := by
  obtain ⟨a, g, hpr⟩ := polOnRemove_eq s i
  unfold evictNode removeCore removeNode
  rw [hpr]
  exact ⟨rfl, rfl, rfl, rfl, rfl, rfl, rfl, rfl⟩

theorem removeCore_frame (s : Shard K V) (i : Nat) (k : K) :
    (removeCore s i k).events = s.events ∧
    (removeCore s i k).evicts = s.evicts ∧
    (removeCore s i k).hits = s.hits ∧
    (removeCore s i k).misses = s.misses ∧
    (removeCore s i k).len = s.len - 1 := by
  obtain ⟨a, g, hpr⟩ := polOnRemove_eq s i
  unfold removeCore removeNode
  rw [hpr]
  exact ⟨rfl, rfl, rfl, rfl, rfl⟩

theorem polOnAdd_frame (s : Shard K V) (i : Nat) :
    (polOnAdd s i).1.events = s.events ∧
    (polOnAdd s i).1.evicts = s.evicts ∧
    (polOnAdd s i).1.len = s.len + 1 ∧
    (polOnAdd s i).1.hits = s.hits ∧
    (polOnAdd s i).1.misses = s.misses ∧
    (polOnAdd s i).1.maxCost = s.maxCost := by
  unfold polOnAdd
  split
  · exact ⟨rfl, rfl, rfl, rfl, rfl, rfl⟩
  · unfold twoqOnAdd
    split
    · exact ⟨rfl, rfl, rfl, rfl, rfl, rfl⟩
    · dsimp only
      split
      · exact ⟨rfl, rfl, rfl, rfl, rfl, rfl⟩
      · exact ⟨rfl, rfl, rfl, rfl, rfl, rfl⟩

theorem polOnGet_frame (s : Shard K V) (i : Nat) :
    (polOnGet s i).events = s.events ∧
    (polOnGet s i).evicts = s.evicts ∧
    (polOnGet s i).len = s.len ∧
    (polOnGet s i).hits = s.hits ∧
    (polOnGet s i).misses = s.misses ∧
    (polOnGet s i).m = s.m ∧
    (polOnGet s i).maxCost = s.maxCost := by
  unfold polOnGet
  split
  · exact ⟨rfl, rfl, rfl, rfl, rfl, rfl, rfl⟩
  · dsimp only
    split
    · exact ⟨rfl, rfl, rfl, rfl, rfl, rfl, rfl⟩
    · exact ⟨rfl, rfl, rfl, rfl, rfl, rfl, rfl⟩

/-- Trace of the count-enforcement loop: it appends some number of
`Evict(Policy)` events, incrementing the eviction counter and decrementing
`len` once per event, and touches nothing else. -/
theorem enforceCount_trace (s : Shard K V) :
    ∃ l1, (enforceCount s).events = s.events ++ l1 ∧
      (∀ e ∈ l1, e = MEvent.evict EvictReason.policy) ∧
      (enforceCount s).evicts = s.evicts + l1.length ∧
      (enforceCount s).len = s.len - l1.length ∧
      (enforceCount s).maxCost = s.maxCost ∧
      (enforceCount s).cap = s.cap ∧
      (enforceCount s).store = s.store ∧
      (enforceCount s).hits = s.hits ∧
      (enforceCount s).misses = s.misses := by
  induction s using enforceCount.induct with
  | case1 s h1 t h2 ih =>
    obtain ⟨hE_ev, hE_cnt, hE_len, hE_cap, hE_max, hE_store, hE_hits,
      hE_miss⟩ := evictNode_frame s t EvictReason.policy
    obtain ⟨l1, hev, hall, hcnt, hlen, hmax, hcap, hstore, hh, hm⟩ := ih
    rw [enforceCount_eq_step h1 h2]
    refine ⟨MEvent.evict EvictReason.policy :: l1, ?_, ?_, ?_, ?_, ?_, ?_,
      ?_, ?_, ?_⟩
    · rw [hev, hE_ev, List.append_assoc]
      rfl
    · intro e he
      rcases List.mem_cons.mp he with rfl | he'
      · rfl
      · exact hall e he'
    · rw [hcnt, hE_cnt, List.length_cons]
      omega
    · rw [hlen, hE_len, List.length_cons]
      push_cast
      omega
    · rw [hmax, hE_max]
    · rw [hcap, hE_cap]
    · rw [hstore, hE_store]
    · rw [hh, hE_hits]
    · rw [hm, hE_miss]
  | case2 s h1 h2 =>
    rw [enforceCount_eq_exit_none h1 h2]
    exact ⟨[], by simp, by simp, by simp, by simp, rfl, rfl, rfl, rfl, rfl⟩
  | case3 s h1 =>
    rw [enforceCount_eq_exit h1]
    exact ⟨[], by simp, by simp, by simp, by simp, rfl, rfl, rfl, rfl, rfl⟩

/-- Trace of the cost-enforcement loop: it appends some number of
`Evict(Capacity)` events with the same bookkeeping. -/
theorem enforceCost_trace (s : Shard K V) :
    ∃ l2, (enforceCost s).events = s.events ++ l2 ∧
      (∀ e ∈ l2, e = MEvent.evict EvictReason.capacity) ∧
      (enforceCost s).evicts = s.evicts + l2.length ∧
      (enforceCost s).len = s.len - l2.length ∧
      (enforceCost s).maxCost = s.maxCost ∧
      (enforceCost s).cap = s.cap ∧
      (enforceCost s).store = s.store ∧
      (enforceCost s).hits = s.hits ∧
      (enforceCost s).misses = s.misses := by
  induction s using enforceCost.induct with
  | case1 s h1 t h2 ih =>
    obtain ⟨hE_ev, hE_cnt, hE_len, hE_cap, hE_max, hE_store, hE_hits,
      hE_miss⟩ := evictNode_frame s t EvictReason.capacity
    obtain ⟨l2, hev, hall, hcnt, hlen, hmax, hcap, hstore, hh, hm⟩ := ih
    rw [enforceCost_eq_step h1 h2]
    refine ⟨MEvent.evict EvictReason.capacity :: l2, ?_, ?_, ?_, ?_, ?_, ?_,
      ?_, ?_, ?_⟩
    · rw [hev, hE_ev, List.append_assoc]
      rfl
    · intro e he
      rcases List.mem_cons.mp he with rfl | he'
      · rfl
      · exact hall e he'
    · rw [hcnt, hE_cnt, List.length_cons]
      omega
    · rw [hlen, hE_len, List.length_cons]
      push_cast
      omega
    · rw [hmax, hE_max]
    · rw [hcap, hE_cap]
    · rw [hstore, hE_store]
    · rw [hh, hE_hits]
    · rw [hm, hE_miss]
  | case2 s h1 h2 =>
    rw [enforceCost_eq_exit_none h1 h2]
    exact ⟨[], by simp, by simp, by simp, by simp, rfl, rfl, rfl, rfl, rfl⟩
  | case3 s h1 =>
    rw [enforceCost_eq_exit h1]
    exact ⟨[], by simp, by simp, by simp, by simp, rfl, rfl, rfl, rfl, rfl⟩

/-- Trace of the full limit enforcement: first the Policy-reason eviction
events of the count loop, then — only when cost limiting is enabled — the
Capacity-reason events of the cost loop, and finally exactly one
`Size(len, cost)` event carrying the final counters. -/
theorem enforceLimits_trace (s : Shard K V) :
    ∃ l1 l2,
      (enforceLimits s).events = s.events ++ l1 ++ l2
        ++ [MEvent.size (enforceLimits s).len (enforceLimits s).cost] ∧
      (∀ e ∈ l1, e = MEvent.evict EvictReason.policy) ∧
      (∀ e ∈ l2, e = MEvent.evict EvictReason.capacity) ∧
      (¬0 < s.maxCost → l2 = []) ∧
      (enforceLimits s).evicts = s.evicts + (l1.length + l2.length) ∧
      (enforceLimits s).len = s.len - (l1.length + l2.length) ∧
      (enforceLimits s).hits = s.hits ∧
      (enforceLimits s).misses = s.misses ∧
      (enforceLimits s).maxCost = s.maxCost ∧
      (enforceLimits s).cap = s.cap ∧
      (enforceLimits s).store = s.store := by
  obtain ⟨l1, h1e, h1a, h1c, h1l, h1m, h1cap, h1st, h1h, h1mi⟩ :=
    enforceCount_trace s
  unfold enforceLimits
  dsimp only
  by_cases hmc : 0 < (enforceCount s).maxCost
  · rw [if_pos hmc]
    obtain ⟨l2, h2e, h2a, h2c, h2l, h2m, h2cap, h2st, h2h, h2mi⟩ :=
      enforceCost_trace (enforceCount s)
    refine ⟨l1, l2, ?_, h1a, h2a, ?_, ?_, ?_, ?_, ?_, ?_, ?_, ?_⟩
    · show (enforceCost (enforceCount s)).events ++ _ = _
      rw [h2e, h1e, List.append_assoc, List.append_assoc]
    · intro hneg
      rw [h1m] at hmc
      exact absurd hmc hneg
    · show (enforceCost (enforceCount s)).evicts = _
      rw [h2c, h1c]
      omega
    · show (enforceCost (enforceCount s)).len = _
      rw [h2l, h1l]
      omega
    · show (enforceCost (enforceCount s)).hits = _
      rw [h2h, h1h]
    · show (enforceCost (enforceCount s)).misses = _
      rw [h2mi, h1mi]
    · show (enforceCost (enforceCount s)).maxCost = _
      rw [h2m, h1m]
    · show (enforceCost (enforceCount s)).cap = _
      rw [h2cap, h1cap]
    · show (enforceCost (enforceCount s)).store = _
      rw [h2st, h1st]
  · rw [if_neg hmc]
    refine ⟨l1, [], ?_, h1a, by simp, fun _ => rfl, ?_, ?_, h1h, h1mi, h1m,
      h1cap, h1st⟩
    · show (enforceCount s).events ++ _ = _
      rw [h1e, List.append_nil, List.append_assoc]
    · show (enforceCount s).evicts = _
      rw [h1c]
      simp
    · show (enforceCount s).len = _
      rw [h1l]
      simp

/-- Claim C2: after every mutating shard operation (Add when it inserts,
Set always), the final step is `enforceLimits`, whose behaviour is, in
this order: while `len > cap` the tail is evicted with reason Policy; then
only if `maxCost > 0`, while `cost > maxCost` the tail is evicted with
reason Capacity; finally exactly one `Size(len, cost)` event with the
final counters is emitted.  The trace decomposition states this for every
state; the two factoring conjuncts show Add and Set end with
`enforceLimits` after at most the policy-candidate eviction (whose event,
when present, is an `Evict(Policy)` preceding the enforcement events). -/
theorem claim2_limit_enforcement :
    (∀ s : Shard K V, ∃ l1 l2,
      (enforceLimits s).events = s.events ++ l1 ++ l2
        ++ [MEvent.size (enforceLimits s).len (enforceLimits s).cost] ∧
      (∀ e ∈ l1, e = MEvent.evict EvictReason.policy) ∧
      (∀ e ∈ l2, e = MEvent.evict EvictReason.capacity) ∧
      (¬0 < s.maxCost → l2 = [])) ∧
    (∀ (s : Shard K V) (k : K) (v : V) (ttl c : Int),
      (shardAdd s k v ttl c).2 = true →
      ∃ s1, (shardAdd s k v ttl c).1 = enforceLimits s1 ∧
        ∃ pre, s1.events = s.events ++ pre ∧
          ∀ e ∈ pre, e = MEvent.evict EvictReason.policy) ∧
    (∀ (s : Shard K V) (k : K) (v : V) (ttl c : Int),
      ∃ s1, shardSet s k v ttl c = enforceLimits s1 ∧
        ∃ pre, s1.events = s.events ++ pre ∧
          ∀ e ∈ pre, e = MEvent.evict EvictReason.policy) := by
  refine ⟨?_, ?_, ?_⟩
  · intro s
    obtain ⟨l1, l2, he, ha1, ha2, hneg, _⟩ := enforceLimits_trace s
    exact ⟨l1, l2, he, ha1, ha2, hneg⟩
  · intro s k v ttl c htrue
    unfold shardAdd at htrue ⊢
    cases hli : lookupM s.m k with
    | some i =>
      rw [hli] at htrue
      simp at htrue
    | none =>
      dsimp only
      unfold shardInsertNew
      dsimp only
      refine ⟨_, rfl, ?_⟩
      cases hcand : (polOnAdd { s with
          store := s.store ++ [⟨k, v, ttl, c⟩]
        , m := (k, s.store.length) :: s.m } s.store.length).2 with
      | none =>
        refine ⟨[], ?_, by simp⟩
        rw [List.append_nil]
        exact (polOnAdd_frame _ _).1
      | some j =>
        refine ⟨[MEvent.evict EvictReason.policy], ?_, ?_⟩
        · rw [(evictNode_frame _ _ _).1, (polOnAdd_frame _ _).1]
        · intro e he
          rcases List.mem_singleton.mp he with rfl
          rfl
  · intro s k v ttl c
    unfold shardSet
    cases hli : lookupM s.m k with
    | some i =>
      dsimp only
      refine ⟨_, rfl, ⟨[], ?_, by simp⟩⟩
      rw [List.append_nil]
      exact (polOnGet_frame _ _).1
    | none =>
      dsimp only
      unfold shardInsertNew
      dsimp only
      refine ⟨_, rfl, ?_⟩
      cases hcand : (polOnAdd { s with
          store := s.store ++ [⟨k, v, ttl, c⟩]
        , m := (k, s.store.length) :: s.m } s.store.length).2 with
      | none =>
        refine ⟨[], ?_, by simp⟩
        rw [List.append_nil]
        exact (polOnAdd_frame _ _).1
      | some j =>
        refine ⟨[MEvent.evict EvictReason.policy], ?_, ?_⟩
        · rw [(evictNode_frame _ _ _).1, (polOnAdd_frame _ _).1]
        · intro e he
          rcases List.mem_singleton.mp he with rfl
          rfl

/-! ### Eviction-event accounting (C6) -/

/-- Is a metrics event an `Evict(reason)` call? -/
def isEvict : MEvent → Bool
  | MEvent.evict _ => true
  | _ => false

/-- Number of `Evict` events in a metrics trace. -/
def countEvicts (l : List MEvent) : Nat :=
  (l.filter isEvict).length

theorem countEvicts_append (a b : List MEvent) :
    countEvicts (a ++ b) = countEvicts a + countEvicts b := by
  simp [countEvicts, List.filter_append]

theorem countEvicts_all_evict {l : List MEvent} {r : EvictReason}
    (h : ∀ e ∈ l, e = MEvent.evict r) : countEvicts l = l.length := by
  induction l with
  | nil => rfl
  | cons e rest ih =>
    have he : e = MEvent.evict r := h e (List.mem_cons_self _ _)
    subst he
    show ((MEvent.evict r :: rest).filter isEvict).length = _
    rw [List.filter_cons]
    simp only [isEvict, if_pos]
    rw [List.length_cons, List.length_cons]
    have := ih (fun e he => h e (List.mem_cons_of_mem _ he))
    simpa [countEvicts] using this

theorem countEvicts_size (a b : Int) :
    countEvicts [MEvent.size a b] = 0 := rfl

/-- The number of resident entries an operation adds (fresh Add/Set) or
explicitly removes (Remove of a present key), before evictions. -/
def opLenDelta (s : Shard K V) : ShardOp K V → Int
  | ShardOp.add k _ _ _ => if lookupM s.m k = none then 1 else 0
  | ShardOp.set k _ _ _ => if lookupM s.m k = none then 1 else 0
  | ShardOp.get _ _ => 0
  | ShardOp.remove k => if lookupM s.m k = none then 0 else -1

/-- Accounting through limit enforcement: relative to a base state whose
trace/counters the input agrees with (up to `e` evictions already
performed by the operation and a net resident delta), enforcement keeps
the balance between the eviction counter and the `Evict` events, and
between `len` and the eviction counter. -/
theorem enforceLimits_accounting (s0 s1 : Shard K V) (dtot : Int) (e : Nat)
    (he : countEvicts s1.events = countEvicts s0.events + e)
    (hc : s1.evicts = s0.evicts + e)
    (hl : s1.len + (e : Int) = s0.len + dtot) :
    (enforceLimits s1).evicts + countEvicts s0.events
      = s0.evicts + countEvicts (enforceLimits s1).events ∧
    (enforceLimits s1).len + ((enforceLimits s1).evicts : Int)
      = s0.len + (s0.evicts : Int) + dtot := by
  obtain ⟨l1, l2, hLe, hLa1, hLa2, _, hLc, hLl, _⟩ := enforceLimits_trace s1
  have hce : countEvicts (enforceLimits s1).events
      = countEvicts s0.events + e + (l1.length + l2.length) := by
    rw [hLe, countEvicts_append, countEvicts_append, countEvicts_append,
      countEvicts_all_evict hLa1, countEvicts_all_evict hLa2,
      countEvicts_size, he]
    omega
  constructor
  · rw [hLc, hce, hc]
    omega
  · rw [hLl, hLc, hc]
    push_cast
    omega

theorem insertNew_accounting (s : Shard K V) (k : K) (v : V)
    (ttl c : Int) :
    (shardInsertNew s k v ttl c).evicts + countEvicts s.events
      = s.evicts + countEvicts (shardInsertNew s k v ttl c).events ∧
    (shardInsertNew s k v ttl c).len
        + ((shardInsertNew s k v ttl c).evicts : Int)
      = s.len + (s.evicts : Int) + 1 := by
  unfold shardInsertNew
  dsimp only
  cases hcand : (polOnAdd { s with
      store := s.store ++ [⟨k, v, ttl, c⟩]
    , m := (k, s.store.length) :: s.m } s.store.length).2 with
  | none =>
    refine enforceLimits_accounting s _ 1 0 ?_ ?_ ?_
    · have h1 : (polOnAdd { s with
          store := s.store ++ [⟨k, v, ttl, c⟩]
        , m := (k, s.store.length) :: s.m } s.store.length).1.events
          = s.events := (polOnAdd_frame _ _).1
      rw [h1]
      omega
    · have h1 : (polOnAdd { s with
          store := s.store ++ [⟨k, v, ttl, c⟩]
        , m := (k, s.store.length) :: s.m } s.store.length).1.evicts
          = s.evicts := (polOnAdd_frame _ _).2.1
      rw [h1]
      omega
    · have h1 : (polOnAdd { s with
          store := s.store ++ [⟨k, v, ttl, c⟩]
        , m := (k, s.store.length) :: s.m } s.store.length).1.len
          = s.len + 1 := (polOnAdd_frame _ _).2.2.1
      rw [h1]
      omega
  | some j =>
    refine enforceLimits_accounting s _ 1 1 ?_ ?_ ?_
    · have h2 : (polOnAdd { s with
          store := s.store ++ [⟨k, v, ttl, c⟩]
        , m := (k, s.store.length) :: s.m } s.store.length).1.events
          = s.events := (polOnAdd_frame _ _).1
      have h1 : (evictNode (polOnAdd { s with
          store := s.store ++ [⟨k, v, ttl, c⟩]
        , m := (k, s.store.length) :: s.m } s.store.length).1 j
          EvictReason.policy).events = s.events
            ++ [MEvent.evict EvictReason.policy] := by
        rw [(evictNode_frame _ _ _).1, h2]
      rw [h1, countEvicts_append]
      rfl
    · have h1 : (polOnAdd { s with
          store := s.store ++ [⟨k, v, ttl, c⟩]
        , m := (k, s.store.length) :: s.m } s.store.length).1.evicts
          = s.evicts := (polOnAdd_frame _ _).2.1
      rw [(evictNode_frame _ _ _).2.1, h1]
    · have h1 : (polOnAdd { s with
          store := s.store ++ [⟨k, v, ttl, c⟩]
        , m := (k, s.store.length) :: s.m } s.store.length).1.len
          = s.len + 1 := (polOnAdd_frame _ _).2.2.1
      rw [(evictNode_frame _ _ _).2.2.1, h1]
      omega

/-- Per-operation eviction accounting: the eviction counter increase
equals the number of `Evict` events appended, and `len` changes by the
explicit insertion/removal delta minus the number of evictions. -/
theorem applyOp_accounting (s : Shard K V) (op : ShardOp K V) :
    (applyOp s op).evicts + countEvicts s.events
      = s.evicts + countEvicts (applyOp s op).events ∧
    (applyOp s op).len + ((applyOp s op).evicts : Int)
      = s.len + (s.evicts : Int) + opLenDelta s op := by
  cases op with
  | add k v ttl c =>
    have hstep : applyOp s (ShardOp.add k v ttl c)
        = (shardAdd s k v ttl c).1 := rfl
    rw [hstep]
    unfold shardAdd
    cases hli : lookupM s.m k with
    | some i =>
      try rw [hli]
      have hD : opLenDelta s (ShardOp.add k v ttl c) = 0 := by
        simp [opLenDelta, hli]
      rw [hD]
      refine ⟨rfl, ?_⟩
      show s.len + (s.evicts : Int) = s.len + (s.evicts : Int) + 0
      omega
    | none =>
      try rw [hli]
      have hD : opLenDelta s (ShardOp.add k v ttl c) = 1 := by
        simp [opLenDelta, hli]
      rw [hD]
      exact insertNew_accounting s k v ttl c
  | set k v ttl c =>
    have hstep : applyOp s (ShardOp.set k v ttl c)
        = shardSet s k v ttl c := rfl
    rw [hstep]
    unfold shardSet
    cases hli : lookupM s.m k with
    | some i =>
      try rw [hli]
      have hD : opLenDelta s (ShardOp.set k v ttl c) = 0 := by
        simp [opLenDelta, hli]
      rw [hD]
      dsimp only
      refine enforceLimits_accounting s _ 0 0 ?_ ?_ ?_
      · have h1 : (polOnUpdate { s with
            store := s.store.set i { nodeAt s.store i with
              val := v, exp := ttl, cost := c }
          , cost := s.cost + (c - (nodeAt s.store i).cost) } i).events
            = s.events := (polOnGet_frame _ _).1
        rw [h1]
        omega
      · have h1 : (polOnUpdate { s with
            store := s.store.set i { nodeAt s.store i with
              val := v, exp := ttl, cost := c }
          , cost := s.cost + (c - (nodeAt s.store i).cost) } i).evicts
            = s.evicts := (polOnGet_frame _ _).2.1
        rw [h1]
        omega
      · have h1 : (polOnUpdate { s with
            store := s.store.set i { nodeAt s.store i with
              val := v, exp := ttl, cost := c }
          , cost := s.cost + (c - (nodeAt s.store i).cost) } i).len
            = s.len := (polOnGet_frame _ _).2.2.1
        rw [h1]
        omega
    | none =>
      try rw [hli]
      have hD : opLenDelta s (ShardOp.set k v ttl c) = 1 := by
        simp [opLenDelta, hli]
      rw [hD]
      exact insertNew_accounting s k v ttl c
  | get k now =>
    have hD : opLenDelta s (ShardOp.get k now) = 0 := rfl
    rw [hD]
    have hstep : applyOp s (ShardOp.get k now) = (shardGet s k now).1 := rfl
    rw [hstep]
    unfold shardGet
    cases hli : lookupM s.m k with
    | none =>
      try rw [hli]
      constructor
      · show s.evicts + countEvicts s.events
          = s.evicts + countEvicts (s.events ++ [MEvent.miss])
        rw [countEvicts_append]
        rfl
      · show s.len + (s.evicts : Int) = s.len + (s.evicts : Int) + 0
        omega
    | some i =>
      try rw [hli]
      dsimp only
      split
      · constructor
        · show (evictNode s i EvictReason.ttl).evicts + countEvicts s.events
            = s.evicts + countEvicts ((evictNode s i EvictReason.ttl).events
              ++ [MEvent.miss])
          rw [(evictNode_frame _ _ _).2.1, countEvicts_append,
            (evictNode_frame _ _ _).1, countEvicts_append]
          have h1 : countEvicts [MEvent.evict EvictReason.ttl] = 1 := rfl
          have h2 : countEvicts [MEvent.miss] = 0 := rfl
          rw [h1, h2]
          omega
        · show (evictNode s i EvictReason.ttl).len
              + ((evictNode s i EvictReason.ttl).evicts : Int)
            = s.len + (s.evicts : Int) + 0
          rw [(evictNode_frame _ _ _).2.2.1, (evictNode_frame _ _ _).2.1]
          push_cast
          omega
      · constructor
        · show (polOnGet s i).evicts + countEvicts s.events
            = s.evicts + countEvicts ((polOnGet s i).events ++ [MEvent.hit])
          rw [(polOnGet_frame _ _).2.1, countEvicts_append,
            (polOnGet_frame _ _).1]
          rfl
        · show (polOnGet s i).len + ((polOnGet s i).evicts : Int)
            = s.len + (s.evicts : Int) + 0
          rw [(polOnGet_frame _ _).2.2.1, (polOnGet_frame _ _).2.1]
          omega
  | remove k =>
    have hstep : applyOp s (ShardOp.remove k) = (shardRemove s k).1 := rfl
    rw [hstep]
    unfold shardRemove
    cases hli : lookupM s.m k with
    | none =>
      try rw [hli]
      have hD : opLenDelta s (ShardOp.remove k) = 0 := by
        simp [opLenDelta, hli]
      rw [hD]
      refine ⟨rfl, ?_⟩
      show s.len + (s.evicts : Int) = s.len + (s.evicts : Int) + 0
      omega
    | some i =>
      try rw [hli]
      have hD : opLenDelta s (ShardOp.remove k) = -1 := by
        simp [opLenDelta, hli]
      rw [hD]
      constructor
      · show (removeCore s i k).evicts + countEvicts s.events
          = s.evicts + countEvicts (removeCore s i k).events
        rw [(removeCore_frame _ _ _).2.1, (removeCore_frame _ _ _).1]
      · show (removeCore s i k).len + ((removeCore s i k).evicts : Int)
          = s.len + (s.evicts : Int) + -1
        rw [(removeCore_frame _ _ _).2.2.2.2, (removeCore_frame _ _ _).2.1]
        omega

/-- Claim C6: every internally driven removal (policy-nominated eviction,
capacity or cost enforcement, lazy TTL expiration) emits exactly one
`Evict(reason)` event and increments the eviction counter — so across any
operation the counter increase equals the number of appended `Evict`
events, and `len` drops below its explicit delta by exactly that count —
while an explicit `Remove(k)` never emits an `Evict` event and never
increments the eviction counter, even when `k` is present (in which case
it removes exactly one entry). -/
theorem claim6_evict_accounting :
    (∀ (s : Shard K V) (k : K),
      (shardRemove s k).1.events = s.events ∧
      (shardRemove s k).1.evicts = s.evicts ∧
      (∀ i, lookupM s.m k = some i → (shardRemove s k).1.len = s.len - 1)) ∧
    (∀ (s : Shard K V) (op : ShardOp K V),
      (applyOp s op).evicts + countEvicts s.events
        = s.evicts + countEvicts (applyOp s op).events) ∧
    (∀ (s : Shard K V) (op : ShardOp K V),
      (applyOp s op).len + ((applyOp s op).evicts : Int)
        = s.len + (s.evicts : Int) + opLenDelta s op) := by
  refine ⟨?_, fun s op => (applyOp_accounting s op).1,
    fun s op => (applyOp_accounting s op).2⟩
  intro s k
  unfold shardRemove
  cases hli : lookupM s.m k with
  | none => exact ⟨rfl, rfl, fun i hi => by simp at hi⟩
  | some i =>
    obtain ⟨hRe, hRc, _, _, hRl⟩ := removeCore_frame s i k
    exact ⟨hRe, hRc, fun i' hi' => hRl⟩

/-! ### Get behaviour on a resident key (C4) -/

theorem evictNode_m (s : Shard K V) (i : Nat) (r : EvictReason) :
    (evictNode s i r).m = eraseKey s.m ((nodeAt s.store i).key) := by
  obtain ⟨a, g, hpr⟩ := polOnRemove_eq s i
  unfold evictNode removeCore removeNode
  rw [hpr]

theorem polOnGet_order (s : Shard K V) (i : Nat) :
    (polOnGet s i).order = i :: s.order.erase i := by
  unfold polOnGet
  split
  · rfl
  · dsimp only
    split <;> rfl

/-- Claim C4: a Get(k) that finds node n: if `n.exp ≠ 0` and
`now() > n.exp`, the node is removed with eviction reason TTL, the miss
counter is incremented, a Miss event is emitted and no value is returned;
otherwise the policy's onGet promotes the node to the MRU head, the hit
counter is incremented, a Hit event is emitted and the stored value is
returned.  An entry whose deadline equals `now()` exactly is still a
hit. -/
theorem claim4_get_ttl_boundary {s : Shard K V} (hs : SInv s) {k : K}
    {now : Int} {i : Nat} (hi : lookupM s.m k = some i) :
    (expired (nodeAt s.store i) now →
      (shardGet s k now).2 = none ∧
      (shardGet s k now).1.misses = s.misses + 1 ∧
      (shardGet s k now).1.hits = s.hits ∧
      (shardGet s k now).1.evicts = s.evicts + 1 ∧
      (shardGet s k now).1.events
        = s.events ++ [MEvent.evict EvictReason.ttl, MEvent.miss] ∧
      lookupM (shardGet s k now).1.m k = none) ∧
    (¬expired (nodeAt s.store i) now →
      (shardGet s k now).2 = some (nodeAt s.store i).val ∧
      (shardGet s k now).1.hits = s.hits + 1 ∧
      (shardGet s k now).1.misses = s.misses ∧
      (shardGet s k now).1.evicts = s.evicts ∧
      (shardGet s k now).1.events = s.events ++ [MEvent.hit] ∧
      (shardGet s k now).1.order = i :: s.order.erase i ∧
      lookupM (shardGet s k now).1.m k = some i) ∧
    ((nodeAt s.store i).exp = now →
      (shardGet s k now).2 = some (nodeAt s.store i).val) := by
  have hkey : (nodeAt s.store i).key = k := (hs.lookup_facts hi).2.2
  unfold shardGet
  rw [hi]
  dsimp only
  refine ⟨?_, ?_, ?_⟩
  · intro hexp
    rw [if_pos hexp]
    obtain ⟨hEe, hEc, _, _, _, _, hEh, hEm⟩ :=
      evictNode_frame s i EvictReason.ttl
    refine ⟨rfl, ?_, ?_, ?_, ?_, ?_⟩
    · show (evictNode s i EvictReason.ttl).misses + 1 = s.misses + 1
      rw [hEm]
    · show (evictNode s i EvictReason.ttl).hits = s.hits
      rw [hEh]
    · show (evictNode s i EvictReason.ttl).evicts = s.evicts + 1
      rw [hEc]
    · show (evictNode s i EvictReason.ttl).events ++ [MEvent.miss]
        = s.events ++ [MEvent.evict EvictReason.ttl, MEvent.miss]
      rw [hEe, List.append_assoc]
      rfl
    · show lookupM (evictNode s i EvictReason.ttl).m k = none
      rw [evictNode_m, hkey]
      exact lookupM_eraseKey_self _ _
  · intro hexp
    rw [if_neg hexp]
    obtain ⟨hGe, _, _, hGh, hGm, hGmap, _⟩ := polOnGet_frame s i
    refine ⟨rfl, ?_, ?_, ?_, ?_, ?_, ?_⟩
    · show (polOnGet s i).hits + 1 = s.hits + 1
      rw [hGh]
    · show (polOnGet s i).misses = s.misses
      rw [hGm]
    · show (polOnGet s i).evicts = s.evicts
      exact (polOnGet_frame s i).2.1
    · show (polOnGet s i).events ++ [MEvent.hit] = s.events ++ [MEvent.hit]
      rw [hGe]
    · show (polOnGet s i).order = i :: s.order.erase i
      exact polOnGet_order s i
    · show lookupM (polOnGet s i).m k = some i
      rw [hGmap]
      exact hi
  · intro heq
    have hnexp : ¬expired (nodeAt s.store i) now := by
      intro hexp
      have h2 : now > (nodeAt s.store i).exp := hexp.2
      rw [heq] at h2
      omega
    rw [if_neg hnexp]

theorem claim4_get_ttl_boundary_witness :
    let s : Shard Nat Nat :=
      { store := [⟨7, 70, 10, 0⟩], m := [(7, 0)], order := [0]
      , len := 1, cost := 0, cap := 4, maxCost := 0, pol := Pol.lru
      , capIn := 1, capGhost := 1, a1in := [], ghost := []
      , hits := 0, misses := 0, evicts := 0
      , events := [MEvent.size 1 0] }
    (expired (nodeAt s.store 0) 11 →
      (shardGet s 7 11).2 = none ∧
      (shardGet s 7 11).1.misses = s.misses + 1 ∧
      (shardGet s 7 11).1.hits = s.hits ∧
      (shardGet s 7 11).1.evicts = s.evicts + 1 ∧
      (shardGet s 7 11).1.events
        = s.events ++ [MEvent.evict EvictReason.ttl, MEvent.miss] ∧
      lookupM (shardGet s 7 11).1.m 7 = none) ∧
    (¬expired (nodeAt s.store 0) 11 →
      (shardGet s 7 11).2 = some (nodeAt s.store 0).val ∧
      (shardGet s 7 11).1.hits = s.hits + 1 ∧
      (shardGet s 7 11).1.misses = s.misses ∧
      (shardGet s 7 11).1.evicts = s.evicts ∧
      (shardGet s 7 11).1.events = s.events ++ [MEvent.hit] ∧
      (shardGet s 7 11).1.order = 0 :: s.order.erase 0 ∧
      lookupM (shardGet s 7 11).1.m 7 = some 0) ∧
    ((nodeAt s.store 0).exp = 11 →
      (shardGet s 7 11).2 = some (nodeAt s.store 0).val) :=
  claim4_get_ttl_boundary (by decide) (by decide)

/-! ### 2Q OnAdd admission (C5) -/

/-- Claim C5: for every call of the 2Q policy's onAdd(n): if n's key is
present in the ghost queue A1out, the ghost entry is removed, n is pushed
to the front of the shard list (admitted to Am: resident but not recorded
in A1in) and no eviction candidate is returned; otherwise n is pushed to
the front of the shard list and recorded as the new MRU of A1in, and if
`|A1in| > capIn`, the node at the LRU end of A1in is returned as the
eviction candidate. -/
theorem claim5_twoq_onadd (s : Shard K V) (i : Nat)
    (hgn : s.ghost.Nodup) :
    ((nodeAt s.store i).key ∈ s.ghost →
      (twoqOnAdd s i).2 = none ∧
      (twoqOnAdd s i).1.ghost = s.ghost.erase (nodeAt s.store i).key ∧
      (nodeAt s.store i).key ∉ (twoqOnAdd s i).1.ghost ∧
      (twoqOnAdd s i).1.order = i :: s.order ∧
      (twoqOnAdd s i).1.a1in = s.a1in) ∧
    ((nodeAt s.store i).key ∉ s.ghost →
      (twoqOnAdd s i).1.order = i :: s.order ∧
      (twoqOnAdd s i).1.a1in = i :: s.a1in ∧
      (twoqOnAdd s i).1.ghost = s.ghost ∧
      (twoqOnAdd s i).2
        = (if ((i :: s.a1in).length : Int) > s.capIn
           then (i :: s.a1in).getLast? else none) ∧
      (s.a1in ≠ [] → (i :: s.a1in).getLast? = s.a1in.getLast?)) := by
  unfold twoqOnAdd
  constructor
  · intro hg
    rw [if_pos hg]
    exact ⟨rfl, rfl, hgn.not_mem_erase, rfl, rfl⟩
  · intro hg
    rw [if_neg hg]
    dsimp only
    refine ⟨?_, ?_, ?_, ?_, ?_⟩
    · split <;> rfl
    · split <;> rfl
    · split <;> rfl
    · split
      case isTrue hcond =>
        rw [if_pos (show ((i :: s.a1in).length : Int) > s.capIn from hcond)]
      case isFalse hcond =>
        rw [if_neg (show ¬((i :: s.a1in).length : Int) > s.capIn from hcond)]
    · intro hne
      cases ha : s.a1in with
      | nil => exact absurd ha hne
      | cons b l2 => exact List.getLast?_cons_cons

theorem claim5_twoq_onadd_witness :
    let s : Shard Nat Nat :=
      { (mkShard 4 0 Pol.twoq 1 2 : Shard Nat Nat) with
          store := [⟨5, 50, 0, 0⟩, ⟨6, 60, 0, 0⟩]
        , m := [(6, 1)], order := [1], len := 1, cost := 0
        , a1in := [1], ghost := [5] }
    ((nodeAt s.store 0).key ∈ s.ghost →
      (twoqOnAdd s 0).2 = none ∧
      (twoqOnAdd s 0).1.ghost = s.ghost.erase (nodeAt s.store 0).key ∧
      (nodeAt s.store 0).key ∉ (twoqOnAdd s 0).1.ghost ∧
      (twoqOnAdd s 0).1.order = 0 :: s.order ∧
      (twoqOnAdd s 0).1.a1in = s.a1in) ∧
    ((nodeAt s.store 0).key ∉ s.ghost →
      (twoqOnAdd s 0).1.order = 0 :: s.order ∧
      (twoqOnAdd s 0).1.a1in = 0 :: s.a1in ∧
      (twoqOnAdd s 0).1.ghost = s.ghost ∧
      (twoqOnAdd s 0).2
        = (if ((0 :: s.a1in).length : Int) > s.capIn
           then (0 :: s.a1in).getLast? else none) ∧
      (s.a1in ≠ [] → (0 :: s.a1in).getLast? = s.a1in.getLast?)) :=
  claim5_twoq_onadd _ 0 (by decide)

/-! ### Cache construction: shard count and per-shard limits (C3) -/

/-- NextPow2 (internal/util): smallest power of two `≥ x` by the classic
bit-fill on a uint64, clamped to `1 <<< 63` on overflow.  uint64 arithmetic
is modelled on `Nat` with explicit `% 2 ^ 64` where the Go code can wrap
(the increment after the fill). -/
def nextPow2 (x : Nat) : Nat :=
  if x ≤ 1 then 1
  else
    let x1 := x - 1
    let x2 := x1 ||| (x1 >>> 1)
    let x3 := x2 ||| (x2 >>> 2)
    let x4 := x3 ||| (x3 >>> 4)
    let x5 := x4 ||| (x4 >>> 8)
    let x6 := x5 ||| (x5 >>> 16)
    let x7 := x6 ||| (x6 >>> 32)
    let x8 := (x7 + 1) % 2 ^ 64
    if x8 = 0 then 2 ^ 63 else x8

/-- ReasonableShardCount (internal/util/shards.go):
`nextPow2(2 * GOMAXPROCS)` clamped to `[1, 256]`. -/
def reasonableShardCount (gomaxprocs : Int) : Int :=
  let p := if gomaxprocs < 1 then 1 else gomaxprocs
  let n : Int := nextPow2 (p * 2).toNat
  let n1 := if n < 1 then 1 else n
  if n1 > 256 then 256 else n1

/-- Shard count actually used by cache.New (cache.go): `opt.Shards`
rounded up to the next power of two, or the auto default
`NextPow2(2 * GOMAXPROCS)` when `opt.Shards ≤ 0`. -/
def cacheShardCount (optShards gomaxprocs : Int) : Int :=
  if optShards ≤ 0 then
    let auto := 2 * gomaxprocs
    let sh : Int := nextPow2 auto.toNat
    if sh < 1 then 1 else sh
  else nextPow2 optShards.toNat

/-- Per-shard entry capacity computed in cache.New (cache.go line 69):
`(opt.Capacity + sh - 1) / sh` with `sh` the rounded shard count.  All
reachable operands are positive (`Capacity > 0` is enforced by a panic,
`sh ≥ 1`), where Go's truncated and Lean's division agree. -/
def perShardCap (capacity S : Int) : Int :=
  (capacity + S - 1) / S

/-- Per-shard cost limit computed in newShard (shard.go lines 45-51):
when `opt.MaxCost > 0` it divides by `opt.Shards` AS PASSED IN OPTIONS
(falling back to ReasonableShardCount only when `opt.Shards ≤ 0`), not by
the rounded power-of-two count that cache.New actually allocates. -/
def newShardMaxCost (optMaxCost optShards gomaxprocs : Int) : Int :=
  if 0 < optMaxCost then
    let shards := if optShards ≤ 0 then reasonableShardCount gomaxprocs
                  else optShards
    (optMaxCost + shards - 1) / shards
  else 0

/-- Claim C3: with S the power-of-two shard count actually used, each
shard's entry ceiling is `ceil(Capacity / S)` — this half holds — and,
when `MaxCost > 0`, each shard's maxCost is `ceil(MaxCost / S)` — this
half FAILS in the code: `newShard` divides `MaxCost` by the unrounded
`opt.Shards`.  Concretely, `Options{Capacity: 8, Shards: 3, MaxCost: 12}`
allocates S = NextPow2(3) = 4 shards of cap `ceil(8/4) = 2`, but each
shard's maxCost is `ceil(12/3) = 4`, not `ceil(12/4) = 3` as specified. -/
theorem claim3_cost_split_uses_unrounded_shards :
    cacheShardCount 3 8 = 4 ∧
    perShardCap 8 (cacheShardCount 3 8) = 2 ∧
    perShardCap 8 (cacheShardCount 3 8)
      = (8 + cacheShardCount 3 8 - 1) / cacheShardCount 3 8 ∧
    newShardMaxCost 12 3 8 = 4 ∧
    (12 + cacheShardCount 3 8 - 1) / cacheShardCount 3 8 = 3 ∧
    newShardMaxCost 12 3 8
      ≠ (12 + cacheShardCount 3 8 - 1) / cacheShardCount 3 8 := by
  decide

/-! ### Add idempotence (C7) -/

/-- The shard state reached inside
`shardAdd (mkShard 8 5 Pol.lru 1 1) 1 10 0 10` just before limit
enforcement: the node is inserted at the MRU head and the map, count and
cost bookkeeping are updated. -/
def c7s3 : Shard Nat Nat :=
  { store := [⟨1, 10, 0, 10⟩], m := [(1, 0)], order := [0]
  , len := 1, cost := 10, cap := 8, maxCost := 5, pol := Pol.lru
  , capIn := 1, capGhost := 1, a1in := [], ghost := []
  , hits := 0, misses := 0, evicts := 0, events := [] }

/-- `c7s3` after the cost loop evicts its only (just-added) node. -/
def c7s4 : Shard Nat Nat :=
  { store := [⟨1, 10, 0, 10⟩], m := [], order := []
  , len := 0, cost := 0, cap := 8, maxCost := 5, pol := Pol.lru
  , capIn := 1, capGhost := 1, a1in := [], ghost := []
  , hits := 0, misses := 0, evicts := 1
  , events := [MEvent.evict EvictReason.capacity] }

/-- `c7s4` after the final Size metrics event of enforceLimitsLocked. -/
def c7s4e : Shard Nat Nat :=
  { c7s4 with events := [MEvent.evict EvictReason.capacity,
                         MEvent.size 0 0] }

/-- Counterexample to claim C7 as stated: on a shard with cost limiting on
(cap 8, maxCost 5), `Add(1, 10)` with cost 10 succeeds but the cost loop
of enforceLimitsLocked immediately evicts the just-added entry, so a
second `Add(1, 20)` finds the key absent and returns true, not false —
and stores `v2`, so the value does not remain `v1`. -/
theorem claim7_add_idempotence_counterexample :
    (shardAdd (mkShard 8 5 Pol.lru 1 1 : Shard Nat Nat) 1 10 0 10).2
      = true ∧
    (shardAdd (shardAdd (mkShard 8 5 Pol.lru 1 1 : Shard Nat Nat)
        1 10 0 10).1 1 20 0 10).2 ≠ false := by
  have h1 : (shardAdd (mkShard 8 5 Pol.lru 1 1 : Shard Nat Nat)
      1 10 0 10).1 = enforceLimits c7s3 := rfl
  have hEC : enforceCount c7s3 = c7s3 := enforceCount_eq_exit (by decide)
  have hEV : evictNode c7s3 0 EvictReason.capacity = c7s4 := rfl
  have hCost : enforceCost c7s3 = c7s4 := by
    rw [enforceCost_eq_step (by decide)
        (show back c7s3 = some 0 from rfl), hEV]
    exact enforceCost_eq_exit (by decide)
  have hEL : enforceLimits c7s3 = c7s4e := by
    unfold enforceLimits
    dsimp only
    rw [hEC, if_pos (show (0 : Int) < c7s3.maxCost by decide), hCost]
    rfl
  constructor
  · rfl
  · rw [h1, hEL]
    decide

/-- Claim C7 (corrected): the literal claim fails when cost limiting can
evict the just-added entry (see the counterexample).  With cost limiting
off (`maxCost ≤ 0`, i.e. Options.MaxCost unset) and a fresh key, the
first Add succeeds, the second Add returns false, performs no update, and
the stored value for k remains `v1`. -/
theorem claim7_add_idempotence {s : Shard K V} (hs : SInv s) {k : K}
    {v1 v2 : V} {t1 c1 t2 c2 : Int} (hnew : lookupM s.m k = none)
    (hc1 : 0 ≤ c1) (hmc : s.maxCost ≤ 0) :
    (shardAdd s k v1 t1 c1).2 = true ∧
    (shardAdd (shardAdd s k v1 t1 c1).1 k v2 t2 c2).2 = false ∧
    (shardAdd (shardAdd s k v1 t1 c1).1 k v2 t2 c2).1
      = (shardAdd s k v1 t1 c1).1 ∧
    ∃ i, lookupM (shardAdd (shardAdd s k v1 t1 c1).1 k v2 t2 c2).1.m k
        = some i ∧
      (nodeAt (shardAdd (shardAdd s k v1 t1 c1).1 k v2 t2 c2).1.store
          i).val = v1 := by
  have hstep : shardAdd s k v1 t1 c1 = (shardInsertNew s k v1 t1 c1, true)
      := by
    unfold shardAdd
    rw [hnew]
  obtain ⟨hSI, hcap, hmax, hstore, hhits, hmiss, hlook⟩ :=
    shardInsertNew_spec hs hnew hc1
  have hl2 : lookupM (shardInsertNew s k v1 t1 c1).m k
      = some s.store.length := hlook hmc
  have hstep2 : shardAdd (shardInsertNew s k v1 t1 c1) k v2 t2 c2
      = (shardInsertNew s k v1 t1 c1, false) := by
    unfold shardAdd
    rw [hl2]
  rw [hstep]
  dsimp only
  rw [hstep2]
  refine ⟨rfl, rfl, rfl, s.store.length, hl2, ?_⟩
  rw [hstore]
  rw [nodeAt_append_self]

theorem claim7_add_idempotence_witness :
    SInv (mkShard 8 0 Pol.lru 1 1 : Shard Nat Nat) ∧
    ((shardAdd (mkShard 8 0 Pol.lru 1 1 : Shard Nat Nat) 1 10 0 10).2
        = true ∧
      (shardAdd (shardAdd (mkShard 8 0 Pol.lru 1 1 : Shard Nat Nat)
          1 10 0 10).1 1 20 0 10).2 = false ∧
      (shardAdd (shardAdd (mkShard 8 0 Pol.lru 1 1 : Shard Nat Nat)
          1 10 0 10).1 1 20 0 10).1
        = (shardAdd (mkShard 8 0 Pol.lru 1 1 : Shard Nat Nat)
            1 10 0 10).1 ∧
      ∃ i, lookupM (shardAdd (shardAdd
          (mkShard 8 0 Pol.lru 1 1 : Shard Nat Nat) 1 10 0 10).1
          1 20 0 10).1.m 1 = some i ∧
        (nodeAt (shardAdd (shardAdd
            (mkShard 8 0 Pol.lru 1 1 : Shard Nat Nat) 1 10 0 10).1
            1 20 0 10).1.store i).val = 10) :=
  ⟨by decide,
   claim7_add_idempotence (by decide) (by decide) (by decide) (by decide)⟩

/-! ### GetOrLoad error handling (C8) -/

/-- Result error of GetOrLoad (cache.go): either the package sentinel
`ErrNoLoader` or an error value produced by the configured loader. -/
inductive LoadErr (E : Type) where
  | noLoader
  | loader (e : E)
deriving DecidableEq

/-- costOf (cache.go): 0 without a Cost function, otherwise the Cost
output clamped to `[0, math.MaxInt32]`. -/
def costOf (costFn : Option (V → Int)) (v : V) : Int :=
  match costFn with
  | none => 0
  | some f =>
    let iv := f v
    let iv1 := if iv < 0 then 0 else iv
    if iv1 > 2 ^ 31 - 1 then 2 ^ 31 - 1 else iv1

/-- GetOrLoad (cache.go), sequentialised for a single shard: fast-path
Get; without a Loader return ErrNoLoader; otherwise run the singleflight
leader body — double-check Get, call the loader, Set only on a nil error
— threading the shard state through each call.  The loader is modelled as
a function `K → V × Option E` (Go's `(V, error)`); `defTTL` is the
absolute deadline the front end computes from DefaultTTL. -/
def getOrLoad {E : Type} (s : Shard K V)
    (loader : Option (K → V × Option E)) (costFn : Option (V → Int))
    (defTTL : Int) (k : K) (now : Int) :
    Shard K V × Except (LoadErr E) V :=
  match (shardGet s k now).2 with
  | some v => ((shardGet s k now).1, Except.ok v)
  | none =>
    match loader with
    | none => ((shardGet s k now).1, Except.error LoadErr.noLoader)
    | some f =>
      let s1 := (shardGet s k now).1
      match (shardGet s1 k now).2 with
      | some v => ((shardGet s1 k now).1, Except.ok v)
      | none =>
        match (f k).2 with
        | none =>
          (shardSet (shardGet s1 k now).1 k (f k).1 defTTL
             (costOf costFn (f k).1), Except.ok (f k).1)
        | some e =>
          ((shardGet s1 k now).1, Except.error (LoadErr.loader e))

/-- A Get that returns no value leaves the key unmapped: a plain miss
does not touch the map, and a TTL eviction deletes the key. -/
theorem shardGet_none_unmap {s : Shard K V} (hs : SInv s) {k : K}
    {now : Int} (h : (shardGet s k now).2 = none) :
    lookupM (shardGet s k now).1.m k = none := by
  unfold shardGet at h ⊢
  cases hl : lookupM s.m k with
  | none =>
    rw [hl]
  | some i =>
    rw [hl] at h
    dsimp only at h ⊢
    by_cases hexp : expired (nodeAt s.store i) now
    · rw [if_pos hexp]
      have hkey : (nodeAt s.store i).key = k := (hs.lookup_facts hl).2.2
      show lookupM (evictNode s i EvictReason.ttl).m k = none
      rw [evictNode_m, hkey]
      exact lookupM_eraseKey_self _ _
    · rw [if_neg hexp] at h
      exact absurd h (by simp)

/-- A Get of an unmapped key reports a miss and leaves the map alone. -/
theorem shardGet_absent {s : Shard K V} {k : K} {now : Int}
    (h : lookupM s.m k = none) :
    (shardGet s k now).2 = none ∧ (shardGet s k now).1.m = s.m := by
  unfold shardGet
  rw [h]
  exact ⟨rfl, rfl⟩

/-- Claim C8: a GetOrLoad miss without a configured Loader returns the
NoLoader error, and when the configured loader fails the same error value
is returned unchanged and no entry is stored for the key (failures are
never cached). -/
theorem claim8_getorload_error_paths {E : Type} {s : Shard K V}
    (hs : SInv s) {k : K} {now defTTL : Int} {costFn : Option (V → Int)}
    (hmiss : (shardGet s k now).2 = none) :
    (getOrLoad s (none : Option (K → V × Option E)) costFn defTTL k
        now).2 = Except.error LoadErr.noLoader ∧
    ∀ (f : K → V × Option E) (v : V) (e : E), f k = (v, some e) →
      (getOrLoad s (some f) costFn defTTL k now).2
        = Except.error (LoadErr.loader e) ∧
      lookupM (getOrLoad s (some f) costFn defTTL k now).1.m k = none := by
  have h1 : lookupM (shardGet s k now).1.m k = none :=
    shardGet_none_unmap hs hmiss
  constructor
  · unfold getOrLoad
    rw [hmiss]
  · intro f v e hf
    unfold getOrLoad
    rw [hmiss]
    dsimp only
    obtain ⟨hg2, hm2⟩ :
        (shardGet (shardGet s k now).1 k now).2 = none ∧
        (shardGet (shardGet s k now).1 k now).1.m
          = (shardGet s k now).1.m :=
      shardGet_absent h1
    rw [hg2]
    dsimp only
    rw [hf]
    exact ⟨rfl, by rw [hm2]; exact h1⟩

theorem claim8_getorload_error_paths_witness :
    SInv (mkShard 4 0 Pol.lru 1 1 : Shard Nat Nat) ∧
    (shardGet (mkShard 4 0 Pol.lru 1 1 : Shard Nat Nat) 1 5).2 = none ∧
    (getOrLoad (mkShard 4 0 Pol.lru 1 1 : Shard Nat Nat)
        (none : Option (Nat → Nat × Option Nat)) none 0 1 5).2
      = Except.error LoadErr.noLoader ∧
    (getOrLoad (mkShard 4 0 Pol.lru 1 1 : Shard Nat Nat)
        (some fun _ => (42, some 3)) none 0 1 5).2
      = Except.error (LoadErr.loader 3) ∧
    lookupM (getOrLoad (mkShard 4 0 Pol.lru 1 1 : Shard Nat Nat)
        (some fun _ => (42, some 3)) none 0 1 5).1.m 1 = none := by
  refine ⟨by decide, by decide,
    (claim8_getorload_error_paths (by decide) (by decide)).1, ?_, ?_⟩
  · exact ((claim8_getorload_error_paths (by decide)
      (by decide)).2 (fun _ => (42, some 3)) 42 3 rfl).1
  · exact ((claim8_getorload_error_paths (by decide)
      (by decide)).2 (fun _ => (42, some 3)) 42 3 rfl).2

end Shardcache
